import Mathlib

/-!
# Circuit breaker (`main.go`): shallow embedding and verified properties

The breaker of `main.go` is embedded as pure functions on a record.

Modelling conventions:
* Go's `int` (on a 64-bit target) and `time.Duration` are 64-bit two's-complement integers:
  the type `I64` holds an `Int` within `-2^63 .. 2^63 - 1`, and `x++` is `I64.succ`, which
  wraps from the largest value to the smallest as Go's `++` does.
* A `time.Time` (a clock reading) is an `Int` on a nanosecond scale, the zero `time.Time`
  being `0`.  `time.Since t` is the difference `now - t` as a `Duration`, capped at the
  largest and the smallest `Duration` as `Time.Sub` caps it (`timeSince`).
* A Go `error` is `Option String`: `none` is `nil`, `some msg` a non-nil error.
* `mainFunc` and `fallbackFunc` are each invoked at most once per `Run`, so a call
  of `Run` is given the outcome each of them would produce, together with the two
  clock readings `Run` may take; the invocations that really happen are logged.
-/

namespace CircuitBreakerPattern

/-- Reduction of an integer to the 64-bit two's-complement range. -/
def wrap64 (x : Int) : Int :=
  (x + 9223372036854775808) % 18446744073709551616 - 9223372036854775808

/-- A 64-bit signed integer: Go's `int` on a 64-bit target, and `time.Duration`. -/
@[ext]
structure I64 where
  val : Int
  lo : -9223372036854775808 ≤ val
  hi : val ≤ 9223372036854775807
deriving DecidableEq

/-- Conversion of an integer to 64 bits, wrapping around. -/
def I64.ofInt (x : Int) : I64 :=
  ⟨wrap64 x, by unfold wrap64; omega, by unfold wrap64; omega⟩

instance instOfNatI64 (n : Nat) : OfNat I64 n := ⟨I64.ofInt n⟩

/-- Go's `x++` on a 64-bit integer: the largest value wraps to the smallest. -/
def I64.succ (x : I64) : I64 := I64.ofInt (x.val + 1)

/-- The largest 64-bit value (`math.MaxInt64`, the largest `Duration`). -/
def I64.maxValue : I64 := ⟨9223372036854775807, by decide, by decide⟩

/-- The smallest 64-bit value (`math.MinInt64`, the smallest `Duration`). -/
def I64.minValue : I64 := ⟨-9223372036854775808, by decide, by decide⟩

/-- Conversion of an integer to 64 bits, capped at the largest and the smallest value. -/
def I64.sat (x : Int) : I64 :=
  if h1 : x < -9223372036854775808 then I64.minValue
  else if h2 : x ≤ 9223372036854775807 then ⟨x, by omega, h2⟩
  else I64.maxValue

/-- `time.Since(t)` when the clock reads `now`: `now.Sub(t)`, the elapsed time as a
`Duration`, capped at the largest and the smallest `Duration`. -/
def timeSince (now t : Int) : I64 := I64.sat (now - t)

/-- The three breaker states (`Closed = iota`, `Open`, `HalfOpen`). -/
inductive State where
  | Closed
  | Open
  | HalfOpen
deriving DecidableEq

/-- A Go `error` value: `none` is `nil`. -/
abbrev Error := Option String

/-- The `CircuitBreaker` struct. -/
structure CircuitBreaker where
  state : State
  failureCount : I64
  successCount : I64
  failureThreshold : I64
  successThreshold : I64
  stateOpenTimeout : I64
  lastFailure : Int
deriving DecidableEq

/-- `NewCircuitBreaker`: the fields not listed in the composite literal take Go's zero
values (`failureCount`, `successCount`, `lastFailure`). -/
def NewCircuitBreaker (failureThreshold : I64) (timeout : I64) (successThreshold : I64) :
    CircuitBreaker :=
  { state := State.Closed
    failureCount := 0
    successCount := 0
    failureThreshold := failureThreshold
    successThreshold := successThreshold
    stateOpenTimeout := timeout
    lastFailure := 0 }

/-- `reset`. -/
def reset (cb : CircuitBreaker) : CircuitBreaker :=
  { cb with state := State.Closed, failureCount := 0, successCount := 0 }

/-- `success`. -/
def success (cb : CircuitBreaker) : CircuitBreaker :=
  if cb.state = State.HalfOpen then
    let cb1 := { cb with successCount := cb.successCount.succ }
    if cb1.successCount.val ≥ cb1.successThreshold.val then reset cb1 else cb1
  else
    reset cb

/-- `increaseFailureCount`; `now` is the reading `time.Now()` gives if it is taken. -/
def increaseFailureCount (cb : CircuitBreaker) (now : Int) : CircuitBreaker :=
  let cb1 := { cb with failureCount := cb.failureCount.succ }
  if cb1.failureCount.val ≥ cb1.failureThreshold.val then
    { cb1 with state := State.Open, lastFailure := now }
  else
    cb1

/-- The two function arguments of `Run`, as entries of the invocation log. -/
inductive Call where
  | mainFunc
  | fallbackFunc
deriving DecidableEq

/-- What the environment supplies to one call of `Run`. -/
structure RunInput where
  /-- The clock reading taken inside `time.Since(cb.lastFailure)`. -/
  sinceNow : Int
  /-- The clock reading taken by `time.Now()` inside `increaseFailureCount`. -/
  failNow : Int
  /-- What `mainFunc()` returns if invoked. -/
  mainErr : Error
  /-- What `fallbackFunc()` returns if invoked. -/
  fallbackErr : Error
deriving DecidableEq

/-- What one call of `Run` produces: the returned error, the breaker after the call,
and the function arguments invoked, in order. -/
structure RunResult where
  ret : Error
  cb : CircuitBreaker
  calls : List Call
deriving DecidableEq

/-- The part of `Run` after the `switch`: invoke `mainFunc`, record the outcome. -/
def Run.attempt (cb : CircuitBreaker) (i : RunInput) : RunResult :=
  match i.mainErr with
  | some _ =>
    { ret := i.fallbackErr
      cb := increaseFailureCount cb i.failNow
      calls := [Call.mainFunc, Call.fallbackFunc] }
  | none =>
    { ret := none
      cb := success cb
      calls := [Call.mainFunc] }

/-- `Run`. -/
def Run (cb : CircuitBreaker) (i : RunInput) : RunResult :=
  match cb.state with
  | State.Open =>
    if (timeSince i.sinceNow cb.lastFailure).val > cb.stateOpenTimeout.val then
      Run.attempt { cb with state := State.HalfOpen } i
    else
      { ret := i.fallbackErr, cb := cb, calls := [Call.fallbackFunc] }
  | _ => Run.attempt cb i

/-- Successive `Run` calls on one breaker, as the loop of `main` makes them. -/
def runSeq (cb : CircuitBreaker) : List RunInput → CircuitBreaker
  | [] => cb
  | i :: is => runSeq (Run cb i).cb is

/-- A call input whose `mainFunc` fails. -/
def RunInput.mainFails (i : RunInput) : Bool := i.mainErr.isSome

/-- A call in which `MainCall` fails with its own error and `FallbackCall` returns `nil`;
both clock readings are `t`. -/
def RunInput.failing (t : Int) : RunInput :=
  { sinceNow := t, failNow := t, mainErr := some "service call failed", fallbackErr := none }

/-- A call in which `MainCall` succeeds; both clock readings are `t`. -/
def RunInput.succeeding (t : Int) : RunInput :=
  { sinceNow := t, failNow := t, mainErr := none, fallbackErr := none }

/-- A tripped breaker with the configuration of `main` (3, 5, 2), opened at time 100. -/
def trippedAt100 : CircuitBreaker :=
  { state := State.Open, failureCount := 3, successCount := 0, failureThreshold := 3,
    successThreshold := 2, stateOpenTimeout := 5, lastFailure := 100 }

/-- The sequence of calls contains `n` consecutive calls whose `mainFunc` fails. -/
def HasFailureRun (n : Nat) (is : List RunInput) : Prop :=
  List.replicate n true <:+: is.map RunInput.mainFails

instance decidableHasFailureRun (n : Nat) (is : List RunInput) :
    Decidable (HasFailureRun n is) := by
  unfold HasFailureRun
  infer_instance

/-- The number of failing calls at the end of the sequence, back to the last success. -/
def trailingFailures (is : List RunInput) : Nat :=
  ((is.map RunInput.mainFails).reverse.takeWhile id).length

/-! ## 64-bit arithmetic -/

theorem I64.ofInt_val (x : Int) (h1 : -9223372036854775808 ≤ x)
    (h2 : x ≤ 9223372036854775807) : (I64.ofInt x).val = x := by
  show wrap64 x = x
  unfold wrap64
  omega

theorem I64.ofInt_self (x : I64) : I64.ofInt x.val = x :=
  I64.ext (I64.ofInt_val x.val x.lo x.hi)

theorem I64.zero_val : (0 : I64).val = 0 := by decide

theorem I64.succ_val (x : I64) (h : x.val < 9223372036854775807) :
    x.succ.val = x.val + 1 :=
  I64.ofInt_val (x.val + 1) (by have := x.lo; omega) (by omega)

theorem I64.succ_val_max (x : I64) (h : x.val = 9223372036854775807) :
    x.succ.val = -9223372036854775808 := by
  show wrap64 (x.val + 1) = -9223372036854775808
  rw [h]
  decide

theorem I64.succ_ofInt (x : Int) (h1 : -9223372036854775808 ≤ x)
    (h2 : x < 9223372036854775807) : (I64.ofInt x).succ = I64.ofInt (x + 1) := by
  show I64.ofInt ((I64.ofInt x).val + 1) = I64.ofInt (x + 1)
  rw [I64.ofInt_val x h1 (by omega)]

theorem timeSince_le_of_le (now t : Int) (d : I64) (h : now - t ≤ d.val) :
    (timeSince now t).val ≤ d.val := by
  have h1 := d.lo
  have h2 := d.hi
  unfold timeSince I64.sat
  split_ifs with c1 c2
  · exact h1
  · exact h
  · omega

theorem timeSince_gt_iff (now t : Int) (d : I64) :
    (timeSince now t).val > d.val ↔ (now - t > d.val ∧ d.val < 9223372036854775807) := by
  have h1 := d.lo
  have h2 := d.hi
  unfold timeSince I64.sat
  split_ifs with c1 c2
  · show (-9223372036854775808 : Int) > d.val ↔ _
    constructor
    · intro h; omega
    · intro h; omega
  · show now - t > d.val ↔ _
    constructor
    · intro h; exact ⟨h, by omega⟩
    · intro h; exact h.1
  · show (9223372036854775807 : Int) > d.val ↔ _
    constructor
    · intro h; exact ⟨by omega, h⟩
    · intro h; exact h.2

/-! ## Single calls -/

theorem Run_of_not_open (cb : CircuitBreaker) (i : RunInput) (h : cb.state ≠ State.Open) :
    Run cb i = Run.attempt cb i := by
  unfold Run
  cases hs : cb.state with
  | Open => exact absurd hs h
  | Closed => rfl
  | HalfOpen => rfl

theorem Run_of_open_elapsed (cb : CircuitBreaker) (i : RunInput) (hs : cb.state = State.Open)
    (ht : (timeSince i.sinceNow cb.lastFailure).val > cb.stateOpenTimeout.val) :
    Run cb i = Run.attempt { cb with state := State.HalfOpen } i := by
  unfold Run
  rw [hs]
  simp only [ht, if_true]

theorem Run_of_open_cooling (cb : CircuitBreaker) (i : RunInput) (hs : cb.state = State.Open)
    (ht : (timeSince i.sinceNow cb.lastFailure).val ≤ cb.stateOpenTimeout.val) :
    Run cb i = { ret := i.fallbackErr, cb := cb, calls := [Call.fallbackFunc] } := by
  unfold Run
  rw [hs]
  have : ¬ ((timeSince i.sinceNow cb.lastFailure).val > cb.stateOpenTimeout.val) :=
    not_lt.mpr ht
  simp only [this, if_false]

theorem Run_open_elapsed_probe_eq (cb : CircuitBreaker) (i : RunInput)
    (hs : cb.state = State.Open)
    (ht : (timeSince i.sinceNow cb.lastFailure).val > cb.stateOpenTimeout.val) :
    Run cb i = Run { cb with state := State.HalfOpen } i :=
  (Run_of_open_elapsed cb i hs ht).trans
    (Run_of_not_open { cb with state := State.HalfOpen } i (by simp)).symm

/-- The three ways through `Run`: short-circuit while cooling down, or the part after the
`switch` on the breaker itself (not Open) or on the breaker admitted as HalfOpen. -/
theorem Run_cases (cb : CircuitBreaker) (i : RunInput) :
    (cb.state = State.Open ∧
      (timeSince i.sinceNow cb.lastFailure).val ≤ cb.stateOpenTimeout.val ∧
      Run cb i = { ret := i.fallbackErr, cb := cb, calls := [Call.fallbackFunc] }) ∨
    (cb.state ≠ State.Open ∧ Run cb i = Run.attempt cb i) ∨
    (cb.state = State.Open ∧
      (timeSince i.sinceNow cb.lastFailure).val > cb.stateOpenTimeout.val ∧
      Run cb i = Run.attempt { cb with state := State.HalfOpen } i) := by
  by_cases hs : cb.state = State.Open
  · by_cases ht : (timeSince i.sinceNow cb.lastFailure).val > cb.stateOpenTimeout.val
    · exact Or.inr (Or.inr ⟨hs, ht, Run_of_open_elapsed cb i hs ht⟩)
    · exact Or.inl ⟨hs, not_lt.mp ht, Run_of_open_cooling cb i hs (not_lt.mp ht)⟩
  · exact Or.inr (Or.inl ⟨hs, Run_of_not_open cb i hs⟩)

theorem attempt_of_fail (c : CircuitBreaker) (i : RunInput) (hm : i.mainFails = true) :
    Run.attempt c i = { ret := i.fallbackErr, cb := increaseFailureCount c i.failNow,
                        calls := [Call.mainFunc, Call.fallbackFunc] } := by
  unfold Run.attempt
  cases h : i.mainErr with
  | none => simp [RunInput.mainFails, h] at hm
  | some e => rfl

theorem attempt_of_ok (c : CircuitBreaker) (i : RunInput) (hm : i.mainFails = false) :
    Run.attempt c i = { ret := none, cb := success c, calls := [Call.mainFunc] } := by
  unfold Run.attempt
  cases h : i.mainErr with
  | none => rfl
  | some e => simp [RunInput.mainFails, h] at hm

theorem success_cases (c : CircuitBreaker) :
    (c.state = State.HalfOpen ∧ c.successCount.succ.val < c.successThreshold.val ∧
      success c = { c with successCount := c.successCount.succ }) ∨
    ((c.state ≠ State.HalfOpen ∨ c.successCount.succ.val ≥ c.successThreshold.val) ∧
      success c = { c with state := State.Closed, failureCount := 0, successCount := 0 }) := by
  unfold success reset
  by_cases hs : c.state = State.HalfOpen
  · by_cases h : c.successCount.succ.val ≥ c.successThreshold.val
    · exact Or.inr ⟨Or.inr h, by simp [hs, h]⟩
    · exact Or.inl ⟨hs, not_le.mp h, by simp [hs, h]⟩
  · exact Or.inr ⟨Or.inl hs, by simp [hs]⟩

theorem increaseFailureCount_cases (c : CircuitBreaker) (now : Int) :
    (c.failureCount.succ.val ≥ c.failureThreshold.val ∧
      increaseFailureCount c now =
        { c with failureCount := c.failureCount.succ, state := State.Open,
                 lastFailure := now }) ∨
    (c.failureCount.succ.val < c.failureThreshold.val ∧
      increaseFailureCount c now = { c with failureCount := c.failureCount.succ }) := by
  unfold increaseFailureCount
  by_cases h : c.failureCount.succ.val ≥ c.failureThreshold.val
  · exact Or.inl ⟨h, by simp [h]⟩
  · exact Or.inr ⟨not_le.mp h, by simp [h]⟩

/-- The breaker on which the part of `Run` after the `switch` works: the breaker itself when it
is not Open, the breaker admitted as HalfOpen when it is Open past the cooldown. -/
theorem Run_attempt_on (cb : CircuitBreaker) (i : RunInput)
    (hmain : ¬ (cb.state = State.Open ∧
      (timeSince i.sinceNow cb.lastFailure).val ≤ cb.stateOpenTimeout.val)) :
    ∃ c, (c = cb ∨ c = { cb with state := State.HalfOpen }) ∧
      (c.state = State.Closed ∨ c.state = State.HalfOpen) ∧
      (c.state = State.Closed ↔ cb.state = State.Closed) ∧
      (c.state = State.HalfOpen ↔ (cb.state = State.HalfOpen ∨
        (cb.state = State.Open ∧
          (timeSince i.sinceNow cb.lastFailure).val > cb.stateOpenTimeout.val))) ∧
      c.failureCount = cb.failureCount ∧ c.successCount = cb.successCount ∧
      c.failureThreshold = cb.failureThreshold ∧ c.successThreshold = cb.successThreshold ∧
      c.lastFailure = cb.lastFailure ∧
      Run cb i = Run.attempt c i := by
  rcases Run_cases cb i with ⟨hs, ht, _⟩ | ⟨hs, h⟩ | ⟨hs, ht, h⟩
  · exact absurd ⟨hs, ht⟩ hmain
  · refine ⟨cb, Or.inl rfl, ?_, Iff.rfl, ?_, rfl, rfl, rfl, rfl, rfl, h⟩
    · cases hst : cb.state with
      | Closed => exact Or.inl rfl
      | HalfOpen => exact Or.inr rfl
      | Open => exact absurd hst hs
    · exact ⟨fun hc => Or.inl hc, fun hc => hc.elim id (fun hc => absurd hc.1 hs)⟩
  · refine ⟨{ cb with state := State.HalfOpen }, Or.inr rfl, Or.inr rfl, ?_, ?_,
      rfl, rfl, rfl, rfl, rfl, h⟩
    · constructor
      · intro hc; exact absurd hc (by simp)
      · intro hc; rw [hs] at hc; exact absurd hc (by simp)
    · exact ⟨fun _ => Or.inr ⟨hs, ht⟩, fun _ => rfl⟩

/-- The invocation log of a call is one of three: `fallbackFunc` alone (Open within the
cooldown), `mainFunc` alone (it succeeded), or `mainFunc` then `fallbackFunc` (it failed). -/
theorem Run_calls (cb : CircuitBreaker) (i : RunInput) :
    (cb.state = State.Open ∧
      (timeSince i.sinceNow cb.lastFailure).val ≤ cb.stateOpenTimeout.val ∧
      (Run cb i).calls = [Call.fallbackFunc]) ∨
    (¬ (cb.state = State.Open ∧
        (timeSince i.sinceNow cb.lastFailure).val ≤ cb.stateOpenTimeout.val) ∧
      i.mainFails = false ∧ (Run cb i).calls = [Call.mainFunc]) ∨
    (¬ (cb.state = State.Open ∧
        (timeSince i.sinceNow cb.lastFailure).val ≤ cb.stateOpenTimeout.val) ∧
      i.mainFails = true ∧ (Run cb i).calls = [Call.mainFunc, Call.fallbackFunc]) := by
  have key : ∀ c : CircuitBreaker,
      (i.mainFails = false ∧ (Run.attempt c i).calls = [Call.mainFunc]) ∨
      (i.mainFails = true ∧ (Run.attempt c i).calls = [Call.mainFunc, Call.fallbackFunc]) := by
    intro c
    cases hm : i.mainFails with
    | true => rw [attempt_of_fail c i hm]; exact Or.inr ⟨rfl, rfl⟩
    | false => rw [attempt_of_ok c i hm]; exact Or.inl ⟨rfl, rfl⟩
  rcases Run_cases cb i with ⟨hs, ht, h⟩ | ⟨hs, h⟩ | ⟨hs, ht, h⟩
  · rw [h]; exact Or.inl ⟨hs, ht, rfl⟩
  · have hn : ¬ (cb.state = State.Open ∧
        (timeSince i.sinceNow cb.lastFailure).val ≤ cb.stateOpenTimeout.val) :=
      fun hc => hs hc.1
    rw [h]
    rcases key cb with ⟨k1, k2⟩ | ⟨k1, k2⟩
    · exact Or.inr (Or.inl ⟨hn, k1, k2⟩)
    · exact Or.inr (Or.inr ⟨hn, k1, k2⟩)
  · have hn : ¬ (cb.state = State.Open ∧
        (timeSince i.sinceNow cb.lastFailure).val ≤ cb.stateOpenTimeout.val) :=
      fun hc => absurd ht (not_lt.mpr hc.2)
    rw [h]
    rcases key { cb with state := State.HalfOpen } with ⟨k1, k2⟩ | ⟨k1, k2⟩
    · exact Or.inr (Or.inl ⟨hn, k1, k2⟩)
    · exact Or.inr (Or.inr ⟨hn, k1, k2⟩)

/-- C10: `NewCircuitBreaker` is total and, for all integer thresholds (non-positive ones
included) and every timeout, returns a breaker that is Closed, with both counters zero,
`lastFailure` the zero time, and the three configuration fields equal to the arguments. -/
theorem NewCircuitBreaker_fields (failureThreshold timeout successThreshold : I64) :
    NewCircuitBreaker failureThreshold timeout successThreshold =
      { state := State.Closed, failureCount := 0, successCount := 0,
        failureThreshold := failureThreshold, successThreshold := successThreshold,
        stateOpenTimeout := timeout, lastFailure := 0 } := rfl

/-- C2: while Open with `now - lastFailure ≤ stateOpenTimeout` (equality included), `Run`
does not invoke `mainFunc`, invokes `fallbackFunc` exactly once, returns its result and leaves
the whole breaker unchanged. -/
theorem Run_open_cooldown_short_circuits (cb : CircuitBreaker) (i : RunInput)
    (hs : cb.state = State.Open)
    (ht : i.sinceNow - cb.lastFailure ≤ cb.stateOpenTimeout.val) :
    Call.mainFunc ∉ (Run cb i).calls ∧
    (Run cb i).calls.count Call.fallbackFunc = 1 ∧
    (Run cb i).calls = [Call.fallbackFunc] ∧
    (Run cb i).ret = i.fallbackErr ∧
    (Run cb i).cb = cb := by
  rw [Run_of_open_cooling cb i hs (timeSince_le_of_le _ _ _ ht)]
  simp

theorem Run_open_cooldown_short_circuits_witness :
    trippedAt100.state = State.Open ∧
    (RunInput.succeeding 105).sinceNow - trippedAt100.lastFailure
      ≤ trippedAt100.stateOpenTimeout.val ∧
    (Run trippedAt100 (RunInput.succeeding 105)).calls = [Call.fallbackFunc] ∧
    (Run trippedAt100 (RunInput.succeeding 105)).cb = trippedAt100 :=
  ⟨rfl, by decide,
    (Run_open_cooldown_short_circuits trippedAt100 (RunInput.succeeding 105) rfl
      (by decide)).2.2.1,
    (Run_open_cooldown_short_circuits trippedAt100 (RunInput.succeeding 105) rfl
      (by decide)).2.2.2.2⟩

/-- C3 (as stated, refuted): the breaker made by `NewCircuitBreaker` with the largest
`Duration` as timeout and opened by one failure at time 1 is Open; at a clock reading `now`
with `now - lastFailure = 2^63 + 9 > stateOpenTimeout` the elapsed time `time.Since` returns
is capped at the largest `Duration`, so `Run` does not invoke `mainFunc` and stays Open. -/
theorem Run_open_elapsed_beyond_cap :
    ¬ (∀ (cb : CircuitBreaker) (i : RunInput), cb.state = State.Open →
        i.sinceNow - cb.lastFailure > cb.stateOpenTimeout.val →
        Call.mainFunc ∈ (Run cb i).calls ∧
        Run cb i = Run { cb with state := State.HalfOpen } i) := by
  intro h
  have h1 := h (runSeq (NewCircuitBreaker 1 I64.maxValue 1) [RunInput.failing 1])
    (RunInput.succeeding 9223372036854775818) (by decide) (by decide)
  exact absurd h1.1 (by decide)

/-- C3 (amended): while Open with `now - lastFailure > stateOpenTimeout` and
`stateOpenTimeout` below the largest `Duration` (the value at which `time.Since` is capped),
`Run` continues past the `switch` with the state set to HalfOpen and invokes `mainFunc`; the
whole result (returned value, breaker, invocations) is that of `Run` on the same breaker with
state HalfOpen. -/
theorem Run_open_elapsed_admits_probe (cb : CircuitBreaker) (i : RunInput)
    (hs : cb.state = State.Open)
    (ht : i.sinceNow - cb.lastFailure > cb.stateOpenTimeout.val)
    (hmax : cb.stateOpenTimeout.val < 9223372036854775807) :
    Run cb i = Run.attempt { cb with state := State.HalfOpen } i ∧
    Call.mainFunc ∈ (Run cb i).calls ∧
    Run cb i = Run { cb with state := State.HalfOpen } i := by
  have hel : (timeSince i.sinceNow cb.lastFailure).val > cb.stateOpenTimeout.val :=
    (timeSince_gt_iff _ _ _).mpr ⟨ht, hmax⟩
  have h1 := Run_of_open_elapsed cb i hs hel
  have h2 : Run { cb with state := State.HalfOpen } i
      = Run.attempt { cb with state := State.HalfOpen } i :=
    Run_of_not_open _ i (by simp)
  refine ⟨h1, ?_, h1.trans h2.symm⟩
  rw [h1]
  unfold Run.attempt
  cases i.mainErr <;> simp

theorem Run_open_elapsed_admits_probe_witness :
    trippedAt100.state = State.Open ∧
    (RunInput.succeeding 106).sinceNow - trippedAt100.lastFailure
      > trippedAt100.stateOpenTimeout.val ∧
    trippedAt100.stateOpenTimeout.val < 9223372036854775807 ∧
    Call.mainFunc ∈ (Run trippedAt100 (RunInput.succeeding 106)).calls ∧
    Run trippedAt100 (RunInput.succeeding 106)
      = Run { trippedAt100 with state := State.HalfOpen } (RunInput.succeeding 106) :=
  ⟨rfl, by decide, by decide,
    (Run_open_elapsed_admits_probe trippedAt100 (RunInput.succeeding 106) rfl
      (by decide) (by decide)).2.1,
    (Run_open_elapsed_admits_probe trippedAt100 (RunInput.succeeding 106) rfl
      (by decide) (by decide)).2.2⟩

/-- C4: `Run` returns `nil` when `mainFunc` is invoked and succeeds, and otherwise (skipped
while Open within the cooldown, or failed) exactly what `fallbackFunc` returns; `mainFunc` is
skipped exactly when the breaker is Open and `time.Since(lastFailure)` is not above the
timeout; an error of `mainFunc` is returned only if `fallbackFunc` returns that same error. -/
theorem Run_returned_value (cb : CircuitBreaker) (i : RunInput) :
    (Run cb i).ret
      = (if Call.mainFunc ∈ (Run cb i).calls ∧ i.mainErr = none then none else i.fallbackErr) ∧
    (Call.mainFunc ∉ (Run cb i).calls ↔
      (cb.state = State.Open ∧
        (timeSince i.sinceNow cb.lastFailure).val ≤ cb.stateOpenTimeout.val)) ∧
    (∀ e, i.mainErr = some e → (Run cb i).ret = some e → i.fallbackErr = some e) := by
  have key : ∀ c : CircuitBreaker,
      (Run.attempt c i).ret = (if i.mainErr = none then none else i.fallbackErr) ∧
      Call.mainFunc ∈ (Run.attempt c i).calls := by
    intro c
    unfold Run.attempt
    cases i.mainErr <;> simp
  rcases Run_cases cb i with ⟨hs, ht, h⟩ | ⟨hs, h⟩ | ⟨hs, ht, h⟩
  · rw [h]
    refine ⟨by simp, ?_, ?_⟩
    · exact ⟨fun _ => ⟨hs, ht⟩, fun _ => by simp⟩
    · intro e _ hr
      exact hr
  · rw [h]
    obtain ⟨k1, k2⟩ := key cb
    refine ⟨?_, ?_, ?_⟩
    · rw [k1]; simp [k2]
    · exact ⟨fun hc => absurd k2 hc, fun hc => absurd hc.1 hs⟩
    · intro e he hr
      rw [k1, he] at hr
      simpa using hr
  · rw [h]
    obtain ⟨k1, k2⟩ := key { cb with state := State.HalfOpen }
    refine ⟨?_, ?_, ?_⟩
    · rw [k1]; simp [k2]
    · exact ⟨fun hc => absurd k2 hc, fun hc => absurd ht (not_lt.mpr hc.2)⟩
    · intro e he hr
      rw [k1, he] at hr
      simpa using hr

/-- C7: on a Closed breaker, whatever its counters, a `Run` whose `mainFunc` succeeds returns
`nil` and leaves the breaker Closed with both counters zero and every other field
(`lastFailure` included) unchanged; a further successful `Run` changes nothing more. -/
theorem Run_closed_success_resets (cb : CircuitBreaker) (i : RunInput)
    (hs : cb.state = State.Closed) (hm : i.mainErr = none) :
    (Run cb i).ret = none ∧
    (Run cb i).cb = { cb with state := State.Closed, failureCount := 0, successCount := 0 } ∧
    (Run cb i).cb.state = State.Closed ∧
    (Run cb i).cb.failureCount = 0 ∧
    (Run cb i).cb.successCount = 0 ∧
    (Run cb i).cb.lastFailure = cb.lastFailure ∧
    (∀ j : RunInput, j.mainErr = none →
      (Run (Run cb i).cb j).ret = none ∧ (Run (Run cb i).cb j).cb = (Run cb i).cb) := by
  have step : ∀ (c : CircuitBreaker) (j : RunInput), c.state = State.Closed → j.mainErr = none →
      Run c j = { ret := none, cb := reset c, calls := [Call.mainFunc] } := by
    intro c j hc hj
    rw [Run_of_not_open c j (by simp [hc])]
    unfold Run.attempt
    rw [hj]
    simp [success, hc]
  rw [step cb i hs hm]
  refine ⟨rfl, rfl, rfl, rfl, rfl, rfl, ?_⟩
  intro j hj
  rw [step (reset cb) j rfl hj]
  exact ⟨rfl, rfl⟩

theorem Run_closed_success_resets_witness :
    (NewCircuitBreaker 3 5 2).state = State.Closed ∧
    (RunInput.succeeding 7).mainErr = none ∧
    (Run (Run (NewCircuitBreaker 3 5 2) (RunInput.failing 1)).cb
      (RunInput.succeeding 7)).cb.failureCount = 0 :=
  ⟨rfl, rfl,
    (Run_closed_success_resets (Run (NewCircuitBreaker 3 5 2) (RunInput.failing 1)).cb
      (RunInput.succeeding 7) (by decide) rfl).2.2.2.1⟩

/-- C9 (as stated, refuted): on a HalfOpen breaker whose `failureCount` is the largest `int`,
a `Run` whose `mainFunc` fails does not increase `failureCount` by 1: `failureCount++` wraps
to the smallest `int`, which is below `failureThreshold = 3`, and the breaker stays
HalfOpen. -/
theorem Run_failed_probe_wraps :
    ¬ (∀ (cb : CircuitBreaker) (i : RunInput) (e : String), cb.state = State.HalfOpen →
        i.mainErr = some e →
        (Run cb i).cb.failureCount.val = cb.failureCount.val + 1) := by
  intro h
  exact absurd
    (h { trippedAt100 with state := State.HalfOpen, failureCount := I64.maxValue }
      (RunInput.failing 106) "service call failed" rfl rfl)
    (by decide)

/-- C9 (amended): on a breaker that is HalfOpen, or Open with the cooldown elapsed (as `Run`
tests it: `time.Since(lastFailure) > stateOpenTimeout`), a `Run` whose `mainFunc` fails
invokes `mainFunc` then `fallbackFunc`, returns the result of `fallbackFunc`, applies
`failureCount++` (which adds exactly one unless `failureCount` is the largest `int`, where it
wraps to the smallest) and leaves `successCount` unchanged; the breaker ends Open with
`lastFailure` the clock reading of that failure exactly when the new `failureCount` reaches
`failureThreshold`, and otherwise ends HalfOpen with `lastFailure` unchanged. -/
theorem Run_failed_probe (cb : CircuitBreaker) (i : RunInput) (e : String)
    (hs : cb.state = State.HalfOpen ∨
      (cb.state = State.Open ∧
        (timeSince i.sinceNow cb.lastFailure).val > cb.stateOpenTimeout.val))
    (hm : i.mainErr = some e) :
    (Run cb i).calls = [Call.mainFunc, Call.fallbackFunc] ∧
    (Run cb i).ret = i.fallbackErr ∧
    (Run cb i).cb.failureCount = cb.failureCount.succ ∧
    (cb.failureCount.val < 9223372036854775807 →
      (Run cb i).cb.failureCount.val = cb.failureCount.val + 1) ∧
    (cb.failureCount.val = 9223372036854775807 →
      (Run cb i).cb.failureCount.val = -9223372036854775808) ∧
    (Run cb i).cb.successCount = cb.successCount ∧
    (((Run cb i).cb.state = State.Open ∧ (Run cb i).cb.lastFailure = i.failNow) ↔
      (Run cb i).cb.failureCount.val ≥ cb.failureThreshold.val) ∧
    (¬ (Run cb i).cb.failureCount.val ≥ cb.failureThreshold.val →
      (Run cb i).cb.state = State.HalfOpen ∧ (Run cb i).cb.lastFailure = cb.lastFailure) := by
  have hmf : i.mainFails = true := by simp [RunInput.mainFails, hm]
  have hcool : ¬ (cb.state = State.Open ∧
      (timeSince i.sinceNow cb.lastFailure).val ≤ cb.stateOpenTimeout.val) := by
    rintro ⟨h1, h2⟩
    rcases hs with hs | ⟨_, hs⟩
    · rw [h1] at hs; exact absurd hs (by simp)
    · exact absurd hs (not_lt.mpr h2)
  obtain ⟨c, _, _, _, hho, hfc, hsc, hfth, _, hlf, hrun⟩ := Run_attempt_on cb i hcool
  have hch : c.state = State.HalfOpen := hho.mpr hs
  rw [hrun, attempt_of_fail c i hmf]
  rcases increaseFailureCount_cases c i.failNow with ⟨hge, h⟩ | ⟨hlt, h⟩
  · rw [h]
    rw [hfc, hfth] at hge
    refine ⟨rfl, rfl, by show c.failureCount.succ = _; rw [hfc],
      fun hl => by show c.failureCount.succ.val = _; rw [hfc]; exact I64.succ_val _ hl,
      fun hl => by show c.failureCount.succ.val = _; rw [hfc]; exact I64.succ_val_max _ hl,
      hsc, ?_, ?_⟩
    · exact ⟨fun _ => by show c.failureCount.succ.val ≥ _; rw [hfc]; exact hge,
        fun _ => ⟨rfl, rfl⟩⟩
    · intro hn
      exact absurd (by show c.failureCount.succ.val ≥ _; rw [hfc]; exact hge) hn
  · rw [h]
    rw [hfc, hfth] at hlt
    refine ⟨rfl, rfl, by show c.failureCount.succ = _; rw [hfc],
      fun hl => by show c.failureCount.succ.val = _; rw [hfc]; exact I64.succ_val _ hl,
      fun hl => by show c.failureCount.succ.val = _; rw [hfc]; exact I64.succ_val_max _ hl,
      hsc, ?_, ?_⟩
    · constructor
      · rintro ⟨hst, _⟩
        have hst2 : c.state = State.Open := hst
        rw [hch] at hst2
        exact absurd hst2 (by simp)
      · intro hge
        have hge2 : c.failureCount.succ.val ≥ cb.failureThreshold.val := hge
        rw [hfc] at hge2
        exact absurd hge2 (not_le.mpr hlt)
    · intro _
      exact ⟨hch, hlf⟩

theorem Run_failed_probe_witness :
    (trippedAt100.state = State.Open ∧
      (timeSince (RunInput.failing 106).sinceNow trippedAt100.lastFailure).val
        > trippedAt100.stateOpenTimeout.val) ∧
    (RunInput.failing 106).mainErr = some "service call failed" ∧
    trippedAt100.failureCount.val < 9223372036854775807 ∧
    (Run trippedAt100 (RunInput.failing 106)).cb.failureCount.val
      = trippedAt100.failureCount.val + 1 :=
  ⟨⟨rfl, by decide⟩, rfl, by decide,
    (Run_failed_probe trippedAt100 (RunInput.failing 106) "service call failed"
      (Or.inr ⟨rfl, by decide⟩) rfl).2.2.2.1 (by decide)⟩

/-! ## Frame properties of a call -/

theorem increaseFailureCount_config (cb : CircuitBreaker) (now : Int) :
    (increaseFailureCount cb now).failureThreshold = cb.failureThreshold ∧
    (increaseFailureCount cb now).successThreshold = cb.successThreshold ∧
    (increaseFailureCount cb now).stateOpenTimeout = cb.stateOpenTimeout := by
  rcases increaseFailureCount_cases cb now with ⟨_, h⟩ | ⟨_, h⟩ <;> rw [h] <;>
    exact ⟨rfl, rfl, rfl⟩

theorem success_config (cb : CircuitBreaker) :
    (success cb).failureThreshold = cb.failureThreshold ∧
    (success cb).successThreshold = cb.successThreshold ∧
    (success cb).stateOpenTimeout = cb.stateOpenTimeout := by
  rcases success_cases cb with ⟨_, _, h⟩ | ⟨_, h⟩ <;> rw [h] <;> exact ⟨rfl, rfl, rfl⟩

theorem attempt_config (c : CircuitBreaker) (i : RunInput) :
    (Run.attempt c i).cb.failureThreshold = c.failureThreshold ∧
    (Run.attempt c i).cb.successThreshold = c.successThreshold ∧
    (Run.attempt c i).cb.stateOpenTimeout = c.stateOpenTimeout := by
  cases hm : i.mainFails with
  | true => rw [attempt_of_fail c i hm]; exact increaseFailureCount_config c i.failNow
  | false => rw [attempt_of_ok c i hm]; exact success_config c

theorem Run_config (cb : CircuitBreaker) (i : RunInput) :
    (Run cb i).cb.failureThreshold = cb.failureThreshold ∧
    (Run cb i).cb.successThreshold = cb.successThreshold ∧
    (Run cb i).cb.stateOpenTimeout = cb.stateOpenTimeout := by
  rcases Run_cases cb i with ⟨_, _, h⟩ | ⟨_, h⟩ | ⟨_, _, h⟩
  · rw [h]; exact ⟨rfl, rfl, rfl⟩
  · rw [h]; exact attempt_config cb i
  · rw [h]; exact attempt_config { cb with state := State.HalfOpen } i

theorem runSeq_config (is : List RunInput) (cb : CircuitBreaker) :
    (runSeq cb is).failureThreshold = cb.failureThreshold ∧
    (runSeq cb is).successThreshold = cb.successThreshold ∧
    (runSeq cb is).stateOpenTimeout = cb.stateOpenTimeout := by
  induction is generalizing cb with
  | nil => exact ⟨rfl, rfl, rfl⟩
  | cons x xs ih =>
    have h1 := Run_config cb x
    have h2 := ih (Run cb x).cb
    exact ⟨h2.1.trans h1.1, h2.2.1.trans h1.2.1, h2.2.2.trans h1.2.2⟩

/-- C11: `Run`, `increaseFailureCount`, `success` and `reset` each leave `failureThreshold`,
`successThreshold` and `stateOpenTimeout` as they were, so after any sequence of `Run` calls
on a breaker made by `NewCircuitBreaker` they are the arguments given to it. -/
theorem configuration_immutable (cb : CircuitBreaker) (i : RunInput) (now : Int)
    (ft tmo st : I64) (hist : List RunInput) :
    ((Run cb i).cb.failureThreshold = cb.failureThreshold ∧
      (Run cb i).cb.successThreshold = cb.successThreshold ∧
      (Run cb i).cb.stateOpenTimeout = cb.stateOpenTimeout) ∧
    ((increaseFailureCount cb now).failureThreshold = cb.failureThreshold ∧
      (increaseFailureCount cb now).successThreshold = cb.successThreshold ∧
      (increaseFailureCount cb now).stateOpenTimeout = cb.stateOpenTimeout) ∧
    ((success cb).failureThreshold = cb.failureThreshold ∧
      (success cb).successThreshold = cb.successThreshold ∧
      (success cb).stateOpenTimeout = cb.stateOpenTimeout) ∧
    ((reset cb).failureThreshold = cb.failureThreshold ∧
      (reset cb).successThreshold = cb.successThreshold ∧
      (reset cb).stateOpenTimeout = cb.stateOpenTimeout) ∧
    ((runSeq (NewCircuitBreaker ft tmo st) hist).failureThreshold = ft ∧
      (runSeq (NewCircuitBreaker ft tmo st) hist).successThreshold = st ∧
      (runSeq (NewCircuitBreaker ft tmo st) hist).stateOpenTimeout = tmo) :=
  ⟨Run_config cb i, increaseFailureCount_config cb now, success_config cb, ⟨rfl, rfl, rfl⟩,
    runSeq_config hist (NewCircuitBreaker ft tmo st)⟩

/-- C13: a `Run` call invokes `mainFunc` at most once and `fallbackFunc` at most once;
`mainFunc` is invoked exactly when the breaker is not Open within the cooldown at the start of
the call (Open with `time.Since(lastFailure)` not above the timeout), and `fallbackFunc`
exactly when `mainFunc` was skipped or was invoked and failed. -/
theorem Run_dispatch (cb : CircuitBreaker) (i : RunInput) :
    (Run cb i).calls.count Call.mainFunc ≤ 1 ∧
    (Run cb i).calls.count Call.fallbackFunc ≤ 1 ∧
    (Call.mainFunc ∈ (Run cb i).calls ↔
      ¬ (cb.state = State.Open ∧
        (timeSince i.sinceNow cb.lastFailure).val ≤ cb.stateOpenTimeout.val)) ∧
    (Call.fallbackFunc ∈ (Run cb i).calls ↔
      (Call.mainFunc ∉ (Run cb i).calls ∨
        (Call.mainFunc ∈ (Run cb i).calls ∧ i.mainFails = true))) := by
  rcases Run_calls cb i with ⟨hs, ht, h⟩ | ⟨hn, hm, h⟩ | ⟨hn, hm, h⟩
  · rw [h]
    refine ⟨by decide, by decide, ?_, ?_⟩
    · exact ⟨fun hc => absurd hc (by decide), fun hc => absurd ⟨hs, ht⟩ hc⟩
    · exact ⟨fun _ => Or.inl (by decide), fun _ => by decide⟩
  · rw [h]
    refine ⟨by decide, by decide, ?_, ?_⟩
    · exact ⟨fun _ => hn, fun _ => by decide⟩
    · constructor
      · intro hc; exact absurd hc (by decide)
      · rintro (hc | ⟨_, hc⟩)
        · exact absurd (by decide) hc
        · rw [hm] at hc; exact absurd hc (by decide)
  · rw [h]
    refine ⟨by decide, by decide, ?_, ?_⟩
    · exact ⟨fun _ => hn, fun _ => by decide⟩
    · exact ⟨fun _ => Or.inr ⟨by decide, hm⟩, fun _ => by decide⟩

/-- C17 (as stated, refuted): on a fresh breaker with the configuration of `main`, a call
whose `mainFunc` fails invokes both `mainFunc` and `fallbackFunc`. -/
theorem Run_invokes_both_on_failure :
    ¬ (∀ (cb : CircuitBreaker) (i : RunInput),
        (Call.mainFunc ∈ (Run cb i).calls ∧ Call.fallbackFunc ∉ (Run cb i).calls) ∨
        (Call.fallbackFunc ∈ (Run cb i).calls ∧ Call.mainFunc ∉ (Run cb i).calls)) := by
  intro h
  exact absurd (h (NewCircuitBreaker 3 5 2) (RunInput.failing 1)) (by decide)

/-- C17 (amended): every `Run` call invokes at least one of `mainFunc` and `fallbackFunc`; it
invokes both (`mainFunc`, then `fallbackFunc`) exactly when `mainFunc` is invoked and fails,
and exactly one of them in every other call: `fallbackFunc` alone when Open within the
cooldown, `mainFunc` alone when it is invoked and succeeds. -/
theorem Run_invokes_one_or_both (cb : CircuitBreaker) (i : RunInput) :
    (Run cb i).calls ≠ [] ∧
    ((Call.mainFunc ∈ (Run cb i).calls ∧ Call.fallbackFunc ∈ (Run cb i).calls) ↔
      (¬ (cb.state = State.Open ∧
          (timeSince i.sinceNow cb.lastFailure).val ≤ cb.stateOpenTimeout.val) ∧
        i.mainFails = true)) ∧
    ((Call.mainFunc ∈ (Run cb i).calls ∧ Call.fallbackFunc ∈ (Run cb i).calls) →
      (Run cb i).calls = [Call.mainFunc, Call.fallbackFunc]) ∧
    (¬ (Call.mainFunc ∈ (Run cb i).calls ∧ Call.fallbackFunc ∈ (Run cb i).calls) →
      ((Run cb i).calls = [Call.fallbackFunc] ∧
        cb.state = State.Open ∧
        (timeSince i.sinceNow cb.lastFailure).val ≤ cb.stateOpenTimeout.val) ∨
      ((Run cb i).calls = [Call.mainFunc] ∧ i.mainFails = false)) := by
  rcases Run_calls cb i with ⟨hs, ht, h⟩ | ⟨hn, hm, h⟩ | ⟨hn, hm, h⟩
  · rw [h]
    refine ⟨by decide, ?_, ?_, ?_⟩
    · exact ⟨fun hc => absurd hc.1 (by decide), fun hc => absurd ⟨hs, ht⟩ hc.1⟩
    · exact fun hc => absurd hc.1 (by decide)
    · exact fun _ => Or.inl ⟨rfl, hs, ht⟩
  · rw [h]
    refine ⟨by decide, ?_, ?_, ?_⟩
    · constructor
      · exact fun hc => absurd hc.2 (by decide)
      · intro hc
        rw [hm] at hc
        exact absurd hc.2 (by decide)
    · exact fun hc => absurd hc.2 (by decide)
    · exact fun _ => Or.inr ⟨rfl, hm⟩
  · rw [h]
    refine ⟨by decide, ?_, ?_, ?_⟩
    · exact ⟨fun _ => ⟨hn, hm⟩, fun _ => by decide⟩
    · exact fun _ => rfl
    · exact fun hc => absurd (by decide) hc

/-- C14: the breaker after `Run` depends only on the breaker before, the two clock readings
and whether `mainFunc` failed: two calls that differ only in which non-nil error `mainFunc`
returns (or both return `nil`) and in what `fallbackFunc` returns leave equal breakers. -/
theorem Run_outcome_only (cb : CircuitBreaker) (sinceNow failNow : Int)
    (m1 m2 f1 f2 : Error) (hm : m1.isSome = m2.isSome) :
    (Run cb { sinceNow := sinceNow, failNow := failNow, mainErr := m1, fallbackErr := f1 }).cb
      = (Run cb { sinceNow := sinceNow, failNow := failNow, mainErr := m2,
                  fallbackErr := f2 }).cb := by
  have key : ∀ c : CircuitBreaker,
      (Run.attempt c
        { sinceNow := sinceNow, failNow := failNow, mainErr := m1, fallbackErr := f1 }).cb
      = (Run.attempt c
        { sinceNow := sinceNow, failNow := failNow, mainErr := m2, fallbackErr := f2 }).cb := by
    intro c
    unfold Run.attempt
    cases m1 <;> cases m2 <;> simp at hm <;> rfl
  unfold Run
  cases cb.state with
  | Closed => exact key cb
  | HalfOpen => exact key cb
  | Open =>
    show (if (timeSince sinceNow cb.lastFailure).val > cb.stateOpenTimeout.val
        then _ else _ : RunResult).cb
      = (if (timeSince sinceNow cb.lastFailure).val > cb.stateOpenTimeout.val
        then _ else _ : RunResult).cb
    by_cases ht : (timeSince sinceNow cb.lastFailure).val > cb.stateOpenTimeout.val
    · simp only [ht, if_true]
      exact key _
    · simp only [ht, if_false]

theorem Run_outcome_only_witness :
    (some "service call failed" : Error).isSome = (some "connection refused" : Error).isSome ∧
    (Run (NewCircuitBreaker 1 5 2)
        { sinceNow := 7, failNow := 8, mainErr := some "service call failed",
          fallbackErr := none }).cb
      = (Run (NewCircuitBreaker 1 5 2)
        { sinceNow := 7, failNow := 8, mainErr := some "connection refused",
          fallbackErr := some "fallback failed" }).cb :=
  ⟨rfl, Run_outcome_only (NewCircuitBreaker 1 5 2) 7 8 (some "service call failed")
    (some "connection refused") none (some "fallback failed") rfl⟩

/-- C12: if `lastFailure` after a `Run` call differs from `lastFailure` before it, then
`mainFunc` was invoked and failed in that call, the failure was recorded on a breaker whose
state was Closed or HalfOpen (the breaker itself, or the one admitted as HalfOpen), and the
call ends Open with `lastFailure` its `time.Now()` reading; `lastFailure` is unchanged when
`mainFunc` succeeds, when it is skipped, and when it fails with the new `failureCount` below
`failureThreshold`. -/
theorem lastFailure_changes_only_on_trip (cb : CircuitBreaker) (i : RunInput) :
    ((Run cb i).cb.lastFailure ≠ cb.lastFailure →
      Call.mainFunc ∈ (Run cb i).calls ∧ i.mainFails = true ∧
      (∃ c, (c = cb ∨ c = { cb with state := State.HalfOpen }) ∧
        (c.state = State.Closed ∨ c.state = State.HalfOpen) ∧
        (Run cb i).cb = increaseFailureCount c i.failNow) ∧
      (Run cb i).cb.state = State.Open ∧
      (Run cb i).cb.lastFailure = i.failNow) ∧
    (i.mainFails = false → (Run cb i).cb.lastFailure = cb.lastFailure) ∧
    (Call.mainFunc ∉ (Run cb i).calls → (Run cb i).cb.lastFailure = cb.lastFailure) ∧
    (i.mainFails = true → (Run cb i).cb.failureCount.val < cb.failureThreshold.val →
      (Run cb i).cb.lastFailure = cb.lastFailure) := by
  by_cases hcool : cb.state = State.Open ∧
      (timeSince i.sinceNow cb.lastFailure).val ≤ cb.stateOpenTimeout.val
  · rw [Run_of_open_cooling cb i hcool.1 hcool.2]
    exact ⟨fun h => absurd rfl h, fun _ => rfl, fun _ => rfl, fun _ _ => rfl⟩
  · obtain ⟨c, hc, hst, _, _, hfc, _, hft, _, hlf, hrun⟩ := Run_attempt_on cb i hcool
    rw [hrun]
    cases hm : i.mainFails with
    | false =>
      rw [attempt_of_ok c i hm]
      have hsl : (success c).lastFailure = cb.lastFailure := by
        rcases success_cases c with ⟨_, _, h⟩ | ⟨_, h⟩ <;> rw [h] <;> exact hlf
      exact ⟨fun h => absurd hsl h, fun _ => hsl, fun _ => hsl, fun h => absurd h (by simp)⟩
    | true =>
      rw [attempt_of_fail c i hm]
      rcases increaseFailureCount_cases c i.failNow with ⟨hge, h⟩ | ⟨hlt, h⟩
      · refine ⟨fun _ => ⟨by simp, rfl, ⟨c, hc, hst, rfl⟩, by rw [h], by rw [h]⟩,
          fun hc2 => absurd hc2 (by simp), fun hc2 => absurd (by simp) hc2, ?_⟩
        intro _ hlow
        rw [h] at hlow
        have hlow2 : c.failureCount.succ.val < cb.failureThreshold.val := hlow
        rw [hft] at hge
        exact absurd hge (not_le.mpr hlow2)
      · have hsame : (increaseFailureCount c i.failNow).lastFailure = cb.lastFailure := by
          rw [h]; exact hlf
        exact ⟨fun hne => absurd hsame hne, fun _ => hsame, fun _ => hsame, fun _ _ => hsame⟩

/-- C15 (as stated, refuted): on a Closed breaker with `successCount = -1` a successful `Run`
resets `successCount` to `0`, the old value plus 1, without the breaker having been HalfOpen;
and on a HalfOpen breaker with `successCount` the largest `int` (threshold 2) a successful
`Run` wraps `successCount` to the smallest `int`, which is neither the old value, nor the old
value plus 1, nor 0. -/
theorem successCount_changes_outside_range :
    ¬ (∀ (cb : CircuitBreaker) (i : RunInput),
        (Run cb i).cb.successCount.val = cb.successCount.val + 1 →
        Call.mainFunc ∈ (Run cb i).calls ∧ i.mainFails = false ∧
        (cb.state = State.HalfOpen ∨
          (cb.state = State.Open ∧
            (timeSince i.sinceNow cb.lastFailure).val > cb.stateOpenTimeout.val))) ∧
    ¬ (∀ (cb : CircuitBreaker) (i : RunInput),
        (Run cb i).cb.successCount.val = cb.successCount.val ∨
        (Run cb i).cb.successCount.val = cb.successCount.val + 1 ∨
        (Run cb i).cb.successCount.val = 0) := by
  constructor
  · intro h
    have h1 := h { NewCircuitBreaker 3 5 2 with successCount := I64.ofInt (-1) }
      (RunInput.succeeding 1) (by decide)
    exact absurd h1.2.2 (by decide)
  · intro h
    exact absurd
      (h { trippedAt100 with state := State.HalfOpen, successCount := I64.maxValue }
        (RunInput.succeeding 106))
      (by decide)

/-- C15 (amended): for a breaker with `0 ≤ successCount` below the largest `int` (as in every
state reached from a breaker constructed with a positive `successThreshold`),
`successCount` after a `Run` call is the old value, the old value plus 1, or 0; it is the old
value plus 1 only if `mainFunc` was invoked and succeeded on a HalfOpen breaker (HalfOpen
before the call, or Open past the cooldown as `Run` tests it); a call that starts Closed does
not increase it, a call in which `mainFunc` fails or is skipped leaves it unchanged; and a
call that ends Closed, from another state or after a success, has both counters 0. -/
theorem successCount_changes (cb : CircuitBreaker) (i : RunInput)
    (h0 : 0 ≤ cb.successCount.val) (h1 : cb.successCount.val < 9223372036854775807) :
    ((Run cb i).cb.successCount.val = cb.successCount.val ∨
      (Run cb i).cb.successCount.val = cb.successCount.val + 1 ∨
      (Run cb i).cb.successCount.val = 0) ∧
    ((Run cb i).cb.successCount.val = cb.successCount.val + 1 →
      Call.mainFunc ∈ (Run cb i).calls ∧ i.mainFails = false ∧
      (cb.state = State.HalfOpen ∨
        (cb.state = State.Open ∧
          (timeSince i.sinceNow cb.lastFailure).val > cb.stateOpenTimeout.val))) ∧
    (cb.state = State.Closed → (Run cb i).cb.successCount.val ≤ cb.successCount.val) ∧
    ((i.mainFails = true ∨ Call.mainFunc ∉ (Run cb i).calls) →
      (Run cb i).cb.successCount = cb.successCount) ∧
    ((Run cb i).cb.state = State.Closed → (cb.state ≠ State.Closed ∨ i.mainFails = false) →
      (Run cb i).cb.failureCount = 0 ∧ (Run cb i).cb.successCount = 0) := by
  by_cases hcool : cb.state = State.Open ∧
      (timeSince i.sinceNow cb.lastFailure).val ≤ cb.stateOpenTimeout.val
  · rw [Run_of_open_cooling cb i hcool.1 hcool.2]
    refine ⟨Or.inl rfl, fun h => ?_, fun _ => le_refl _, fun _ => rfl, fun h => ?_⟩
    · have h2 : cb.successCount.val = cb.successCount.val + 1 := h
      omega
    · have h2 : cb.state = State.Closed := h
      rw [hcool.1] at h2
      exact absurd h2 (by simp)
  · obtain ⟨c, _, hst, hcl, hho, hfc, hsc, _, hsth, _, hrun⟩ := Run_attempt_on cb i hcool
    rw [hrun]
    cases hm : i.mainFails with
    | false =>
      rw [attempt_of_ok c i hm]
      rcases success_cases c with ⟨hs, hlt, h⟩ | ⟨hs, h⟩
      · rw [h]
        have hsucc : c.successCount.succ.val = cb.successCount.val + 1 := by
          rw [hsc]; exact I64.succ_val _ h1
        refine ⟨Or.inr (Or.inl hsucc),
          fun _ => ⟨by simp, rfl, hho.mp hs⟩, fun hc => ?_, fun hc => ?_, fun hc => ?_⟩
        · rw [hcl.mpr hc] at hs
          exact absurd hs (by simp)
        · rcases hc with hc | hc
          · exact absurd hc (by simp)
          · exact absurd (by simp) hc
        · have hc2 : c.state = State.Closed := hc
          rw [hs] at hc2
          exact absurd hc2 (by simp)
      · rw [h]
        refine ⟨Or.inr (Or.inr I64.zero_val), fun hc => ?_,
          fun _ => by show (0 : I64).val ≤ _; rw [I64.zero_val]; exact h0, fun hc => ?_,
          fun _ _ => ⟨rfl, rfl⟩⟩
        · have hc2 : (0 : I64).val = cb.successCount.val + 1 := hc
          rw [I64.zero_val] at hc2
          omega
        · rcases hc with hc | hc
          · exact absurd hc (by simp)
          · exact absurd (by simp) hc
    | true =>
      rw [attempt_of_fail c i hm]
      have hsame : (increaseFailureCount c i.failNow).successCount = cb.successCount := by
        rcases increaseFailureCount_cases c i.failNow with ⟨_, h⟩ | ⟨_, h⟩ <;> rw [h] <;>
          exact hsc
      refine ⟨Or.inl (by rw [hsame]), fun hc => ?_, fun _ => le_of_eq (by rw [hsame]),
        fun _ => hsame, fun hc hor => ?_⟩
      · rw [hsame] at hc
        omega
      · rcases increaseFailureCount_cases c i.failNow with ⟨_, h⟩ | ⟨_, h⟩
        · rw [h] at hc
          exact absurd hc (by simp)
        · rw [h] at hc
          have hc2 : c.state = State.Closed := hc
          rcases hor with hor | hor
          · exact absurd (hcl.mp hc2) hor
          · exact absurd hor (by simp)

theorem successCount_changes_witness :
    (0 : Int) ≤ (Run trippedAt100 (RunInput.succeeding 106)).cb.successCount.val ∧
    (Run trippedAt100 (RunInput.succeeding 106)).cb.successCount.val
      < 9223372036854775807 ∧
    ((Run (Run trippedAt100 (RunInput.succeeding 106)).cb
        (RunInput.succeeding 107)).cb.state = State.Closed ∧
      (Run (Run trippedAt100 (RunInput.succeeding 106)).cb
        (RunInput.succeeding 107)).cb.successCount = 0) :=
  ⟨by decide, by decide,
    by decide,
    ((successCount_changes (Run trippedAt100 (RunInput.succeeding 106)).cb
      (RunInput.succeeding 107) (by decide) (by decide)).2.2.2.2 (by decide)
      (Or.inl (by decide))).2⟩

/-! ## Sequences of calls -/

theorem exists_eq_append_singleton (l : List RunInput) (h : l ≠ []) :
    ∃ L b, l = L ++ [b] := by
  rcases List.eq_nil_or_concat l with h1 | ⟨L, b, h1⟩
  · exact absurd h1 h
  · exact ⟨L, b, by rw [h1, List.concat_eq_append]⟩

theorem runSeq_append (cb : CircuitBreaker) (xs ys : List RunInput) :
    runSeq cb (xs ++ ys) = runSeq (runSeq cb xs) ys := by
  induction xs generalizing cb with
  | nil => rfl
  | cons x xs ih => exact ih (Run cb x).cb

theorem Run_cb_of_fail (cb : CircuitBreaker) (i : RunInput) (hs : cb.state ≠ State.Open)
    (hm : i.mainFails = true) : (Run cb i).cb = increaseFailureCount cb i.failNow := by
  rw [Run_of_not_open cb i hs, attempt_of_fail cb i hm]

theorem Run_cb_of_ok (cb : CircuitBreaker) (i : RunInput) (hs : cb.state ≠ State.Open)
    (hm : i.mainFails = false) : (Run cb i).cb = success cb := by
  rw [Run_of_not_open cb i hs, attempt_of_ok cb i hm]

/-- Failures that stay below the threshold only move `failureCount`. -/
theorem runSeq_failures_below (is : List RunInput) (cb : CircuitBreaker)
    (hs : cb.state = State.Closed) (hall : ∀ i ∈ is, i.mainFails = true)
    (hlt : cb.failureCount.val + is.length < cb.failureThreshold.val) :
    runSeq cb is = { cb with failureCount := I64.ofInt (cb.failureCount.val + is.length) } := by
  induction is generalizing cb with
  | nil => simp [runSeq, I64.ofInt_self]
  | cons x xs ih =>
    have hx : x.mainFails = true := hall x (List.mem_cons_self x xs)
    have hlen : ((x :: xs).length : Int) = (xs.length : Int) + 1 := by simp
    rw [hlen] at hlt
    have hnn : (0 : Int) ≤ (xs.length : Int) := Int.ofNat_nonneg _
    have hhi := cb.failureThreshold.hi
    have hsv : cb.failureCount.succ.val = cb.failureCount.val + 1 :=
      I64.succ_val _ (by omega)
    have hstep : (Run cb x).cb = { cb with failureCount := cb.failureCount.succ } := by
      rw [Run_cb_of_fail cb x (by simp [hs]) hx]
      rcases increaseFailureCount_cases cb x.failNow with ⟨hge, _⟩ | ⟨_, h⟩
      · omega
      · exact h
    show runSeq (Run cb x).cb xs = _
    rw [hstep]
    have h2 := ih { cb with failureCount := cb.failureCount.succ } hs
      (fun i hi => hall i (List.mem_cons_of_mem x hi))
      (by show cb.failureCount.succ.val + (xs.length : Int) < cb.failureThreshold.val; omega)
    rw [h2, hlen]
    show ({ cb with failureCount := I64.ofInt (cb.failureCount.succ.val + (xs.length : Int)) }
        : CircuitBreaker)
      = { cb with failureCount := I64.ofInt (cb.failureCount.val + ((xs.length : Int) + 1)) }
    rw [hsv]
    congr 2
    omega

/-- C1: on a Closed breaker with `failureCount = 0` and `failureThreshold = n`, after `k < n`
consecutive `Run` calls whose `mainFunc` fails the breaker is still Closed with
`failureCount = k`; after exactly `n` such calls it is Open (with `failureCount = n`) and
`lastFailure` is the clock reading taken when the `n`-th failure was recorded.  (`n > 0` need
not be assumed: a number of calls is never below a non-positive `n`, and `n` calls of which
one is the last make `n` positive.) -/
theorem consecutive_failures_trip (n : Int) (cb : CircuitBreaker)
    (hs : cb.state = State.Closed) (hf : cb.failureCount.val = 0)
    (ht : cb.failureThreshold.val = n)
    (is : List RunInput) (hall : ∀ i ∈ is, i.mainFails = true) :
    ((is.length : Int) < n →
      (runSeq cb is).state = State.Closed ∧
      (runSeq cb is).failureCount.val = is.length) ∧
    (∀ (js : List RunInput) (j : RunInput), is = js ++ [j] → (is.length : Int) = n →
      (runSeq cb is).state = State.Open ∧ (runSeq cb is).failureCount.val = n ∧
      (runSeq cb is).lastFailure = j.failNow) := by
  have hhi := cb.failureThreshold.hi
  have hnn : (0 : Int) ≤ (is.length : Int) := Int.ofNat_nonneg _
  constructor
  · intro hlt
    rw [runSeq_failures_below is cb hs hall (by rw [hf, ht]; simpa using hlt)]
    refine ⟨hs, ?_⟩
    show (I64.ofInt (cb.failureCount.val + (is.length : Int))).val = _
    rw [hf, I64.ofInt_val _ (by omega) (by omega)]
    omega
  · intro js j hsplit hlen
    subst hsplit
    have hjs : ∀ i ∈ js, i.mainFails = true := fun i hi => hall i (by simp [hi])
    have hj : j.mainFails = true := hall j (by simp)
    have hlen2 : (js.length : Int) + 1 = n := by simpa using hlen
    have hjn : (0 : Int) ≤ (js.length : Int) := Int.ofNat_nonneg _
    rw [runSeq_append,
      runSeq_failures_below js cb hs hjs (by rw [hf, ht]; omega)]
    show (Run _ j).cb.state = State.Open ∧ (Run _ j).cb.failureCount.val = n ∧
      (Run _ j).cb.lastFailure = j.failNow
    rw [Run_cb_of_fail _ j (by simp [hs]) hj]
    have hval : (I64.ofInt (cb.failureCount.val + (js.length : Int))).val
        = (js.length : Int) := by
      rw [hf, I64.ofInt_val _ (by omega) (by omega)]
      omega
    have hsv : (I64.ofInt (cb.failureCount.val + (js.length : Int))).succ.val = n := by
      rw [I64.succ_val _ (by rw [hval]; omega), hval]
      exact hlen2
    rcases increaseFailureCount_cases
      { cb with failureCount := I64.ofInt (cb.failureCount.val + (js.length : Int)) }
      j.failNow with ⟨_, h⟩ | ⟨hlt, _⟩
    · rw [h]
      exact ⟨rfl, hsv, rfl⟩
    · have hlt2 : (I64.ofInt (cb.failureCount.val + (js.length : Int))).succ.val
          < cb.failureThreshold.val := hlt
      omega

theorem consecutive_failures_trip_witness :
    (runSeq (NewCircuitBreaker 3 5 2)
      [RunInput.failing 10, RunInput.failing 11, RunInput.failing 12]).state = State.Open ∧
    (runSeq (NewCircuitBreaker 3 5 2)
      [RunInput.failing 10, RunInput.failing 11, RunInput.failing 12]).lastFailure = 12 ∧
    (runSeq (NewCircuitBreaker 3 5 2)
      [RunInput.failing 10, RunInput.failing 11]).failureCount.val = 2 :=
  ⟨((consecutive_failures_trip 3 (NewCircuitBreaker 3 5 2) rfl (by decide) (by decide)
      [RunInput.failing 10, RunInput.failing 11, RunInput.failing 12] (by decide)).2
      [RunInput.failing 10, RunInput.failing 11] (RunInput.failing 12) rfl rfl).1,
    ((consecutive_failures_trip 3 (NewCircuitBreaker 3 5 2) rfl (by decide) (by decide)
      [RunInput.failing 10, RunInput.failing 11, RunInput.failing 12] (by decide)).2
      [RunInput.failing 10, RunInput.failing 11] (RunInput.failing 12) rfl rfl).2.2,
    ((consecutive_failures_trip 3 (NewCircuitBreaker 3 5 2) rfl (by decide) (by decide)
      [RunInput.failing 10, RunInput.failing 11] (by decide)).1 (by decide)).2⟩

/-! ## Recovery -/

theorem Run_successCount_bound (cb : CircuitBreaker) (i : RunInput)
    (h0 : 0 ≤ cb.successCount.val) (h1 : cb.successCount.val < cb.successThreshold.val) :
    0 ≤ (Run cb i).cb.successCount.val ∧
    (Run cb i).cb.successCount.val < cb.successThreshold.val := by
  have hhi := cb.successThreshold.hi
  by_cases hcool : cb.state = State.Open ∧
      (timeSince i.sinceNow cb.lastFailure).val ≤ cb.stateOpenTimeout.val
  · rw [Run_of_open_cooling cb i hcool.1 hcool.2]
    exact ⟨h0, h1⟩
  · obtain ⟨c, _, _, _, _, _, hsc, _, hsth, _, hrun⟩ := Run_attempt_on cb i hcool
    rw [hrun]
    cases hm : i.mainFails with
    | false =>
      rw [attempt_of_ok c i hm]
      rcases success_cases c with ⟨_, hlt, h⟩ | ⟨_, h⟩
      · rw [h]
        have hsv : c.successCount.succ.val = cb.successCount.val + 1 := by
          rw [hsc]; exact I64.succ_val _ (by omega)
        rw [hsth] at hlt
        refine ⟨?_, hlt⟩
        show 0 ≤ c.successCount.succ.val
        omega
      · rw [h]
        show 0 ≤ (0 : I64).val ∧ (0 : I64).val < cb.successThreshold.val
        rw [I64.zero_val]
        exact ⟨le_refl _, by omega⟩
    | true =>
      rw [attempt_of_fail c i hm]
      have hsame : (increaseFailureCount c i.failNow).successCount = cb.successCount := by
        rcases increaseFailureCount_cases c i.failNow with ⟨_, h⟩ | ⟨_, h⟩ <;> rw [h] <;>
          exact hsc
      rw [hsame]
      exact ⟨h0, h1⟩

theorem runSeq_successCount_bound (is : List RunInput) (cb : CircuitBreaker)
    (h0 : 0 ≤ cb.successCount.val) (h1 : cb.successCount.val < cb.successThreshold.val) :
    (runSeq cb is).successThreshold = cb.successThreshold ∧
    0 ≤ (runSeq cb is).successCount.val ∧
    (runSeq cb is).successCount.val < cb.successThreshold.val := by
  induction is generalizing cb with
  | nil => exact ⟨rfl, h0, h1⟩
  | cons x xs ih =>
    have hb := Run_successCount_bound cb x h0 h1
    have ht := (Run_config cb x).2.1
    have := ih (Run cb x).cb hb.1 (by rw [ht]; exact hb.2)
    rw [ht] at this
    exact this

/-- Successful probes that stay below the threshold only move `successCount`. -/
theorem runSeq_probes_below (ps : List RunInput) (cb : CircuitBreaker)
    (hs : cb.state = State.HalfOpen) (hall : ∀ i ∈ ps, i.mainFails = false)
    (hlt : cb.successCount.val + ps.length < cb.successThreshold.val) :
    runSeq cb ps = { cb with successCount := I64.ofInt (cb.successCount.val + ps.length) } := by
  induction ps generalizing cb with
  | nil => simp [runSeq, I64.ofInt_self]
  | cons x xs ih =>
    have hx : x.mainFails = false := hall x (List.mem_cons_self x xs)
    have hlen : ((x :: xs).length : Int) = (xs.length : Int) + 1 := by simp
    rw [hlen] at hlt
    have hnn : (0 : Int) ≤ (xs.length : Int) := Int.ofNat_nonneg _
    have hhi := cb.successThreshold.hi
    have hsv : cb.successCount.succ.val = cb.successCount.val + 1 :=
      I64.succ_val _ (by omega)
    have hstep : (Run cb x).cb = { cb with successCount := cb.successCount.succ } := by
      rw [Run_cb_of_ok cb x (by simp [hs]) hx]
      rcases success_cases cb with ⟨_, _, h⟩ | ⟨hor, _⟩
      · exact h
      · rcases hor with hor | hor
        · exact absurd hs hor
        · omega
    show runSeq (Run cb x).cb xs = _
    rw [hstep]
    have h2 := ih { cb with successCount := cb.successCount.succ } hs
      (fun i hi => hall i (List.mem_cons_of_mem x hi))
      (by show cb.successCount.succ.val + (xs.length : Int) < cb.successThreshold.val; omega)
    rw [h2, hlen]
    show ({ cb with successCount := I64.ofInt (cb.successCount.succ.val + (xs.length : Int)) }
        : CircuitBreaker)
      = { cb with successCount := I64.ofInt (cb.successCount.val + ((xs.length : Int) + 1)) }
    rw [hsv]
    congr 2
    omega

/-- The successful probe that brings `successCount` to the threshold closes the breaker. -/
theorem runSeq_probes_close (ps : List RunInput) (p : RunInput) (cb : CircuitBreaker)
    (hs : cb.state = State.HalfOpen) (hall : ∀ i ∈ ps ++ [p], i.mainFails = false)
    (heq : cb.successCount.val + (ps ++ [p]).length = cb.successThreshold.val) :
    runSeq cb (ps ++ [p]) =
      { cb with state := State.Closed, failureCount := 0, successCount := 0 } := by
  have hps : ∀ i ∈ ps, i.mainFails = false := fun i hi => hall i (by simp [hi])
  have hp : p.mainFails = false := hall p (by simp)
  have hlen : (((ps ++ [p]).length : Nat) : Int) = (ps.length : Int) + 1 := by simp
  rw [hlen] at heq
  have hnn : (0 : Int) ≤ (ps.length : Int) := Int.ofNat_nonneg _
  have hhi := cb.successThreshold.hi
  have hlo := cb.successCount.lo
  rw [runSeq_append, runSeq_probes_below ps cb hs hps (by omega)]
  show (Run _ p).cb = _
  rw [Run_cb_of_ok _ p (by simp [hs]) hp]
  have hval : (I64.ofInt (cb.successCount.val + (ps.length : Int))).val
      = cb.successCount.val + (ps.length : Int) :=
    I64.ofInt_val _ (by omega) (by omega)
  have hsv : (I64.ofInt (cb.successCount.val + (ps.length : Int))).succ.val
      = cb.successThreshold.val := by
    rw [I64.succ_val _ (by rw [hval]; omega), hval]
    omega
  rcases success_cases
    { cb with successCount := I64.ofInt (cb.successCount.val + (ps.length : Int)) }
    with ⟨_, hlt, _⟩ | ⟨_, h⟩
  · have hlt2 : (I64.ofInt (cb.successCount.val + (ps.length : Int))).succ.val
        < cb.successThreshold.val := hlt
    omega
  · exact h

/-- From an Open breaker whose cooldown has elapsed at the first call, calls act as on the
same breaker in state HalfOpen. -/
theorem runSeq_of_open_elapsed (cb : CircuitBreaker) (p : RunInput) (rest : List RunInput)
    (hs : cb.state = State.Open)
    (ht : (timeSince p.sinceNow cb.lastFailure).val > cb.stateOpenTimeout.val) :
    runSeq cb (p :: rest) = runSeq { cb with state := State.HalfOpen } (p :: rest) := by
  show runSeq (Run cb p).cb rest = runSeq (Run { cb with state := State.HalfOpen } p).cb rest
  rw [(Run_open_elapsed_probe_eq cb p hs ht)]

/-- Successful calls on an Open breaker, the first one made after the cooldown: below the
threshold they only move `successCount` (state HalfOpen); reaching it closes the breaker. -/
theorem runSeq_probes_from_open (cb : CircuitBreaker) (p : RunInput) (rest : List RunInput)
    (hs : cb.state = State.Open)
    (ht : (timeSince p.sinceNow cb.lastFailure).val > cb.stateOpenTimeout.val)
    (hall : ∀ i ∈ p :: rest, i.mainFails = false) :
    (cb.successCount.val + (p :: rest).length < cb.successThreshold.val →
      runSeq cb (p :: rest) =
        { cb with state := State.HalfOpen,
                  successCount := I64.ofInt (cb.successCount.val + (p :: rest).length) }) ∧
    (cb.successCount.val + (p :: rest).length = cb.successThreshold.val →
      runSeq cb (p :: rest) =
        { cb with state := State.Closed, failureCount := 0, successCount := 0 }) := by
  rw [runSeq_of_open_elapsed cb p rest hs ht]
  constructor
  · intro hlt
    exact runSeq_probes_below (p :: rest) { cb with state := State.HalfOpen } rfl hall hlt
  · intro heq
    obtain ⟨L, b, hL⟩ := exists_eq_append_singleton (p :: rest) (List.cons_ne_nil p rest)
    rw [hL] at hall heq ⊢
    exact runSeq_probes_close L b { cb with state := State.HalfOpen } rfl hall heq

/-- A fresh breaker with a positive `failureThreshold` is Open after that many failing
calls, with `failureCount = failureThreshold`, `successCount = 0` and `lastFailure` the
clock reading of the last of them. -/
theorem runSeq_fresh_tripped (ft tmo st : I64) (hft : 0 < ft.val)
    (L : List RunInput) (b : RunInput) (hfail : ∀ i ∈ L ++ [b], i.mainFails = true)
    (hlen : ((L ++ [b]).length : Int) = ft.val) :
    runSeq (NewCircuitBreaker ft tmo st) (L ++ [b]) =
      { state := State.Open, failureCount := ft, successCount := 0, failureThreshold := ft,
        successThreshold := st, stateOpenTimeout := tmo, lastFailure := b.failNow } := by
  have hL1 : ∀ i ∈ L, i.mainFails = true := fun i hi => hfail i (by simp [hi])
  have hb : b.mainFails = true := hfail b (by simp)
  have hLlen : (L.length : Int) + 1 = ft.val := by simpa using hlen
  have hnn : (0 : Int) ≤ (L.length : Int) := Int.ofNat_nonneg _
  have hhi := ft.hi
  have hz : (NewCircuitBreaker ft tmo st).failureCount.val = 0 := I64.zero_val
  rw [runSeq_append,
    runSeq_failures_below L (NewCircuitBreaker ft tmo st) rfl hL1
      (by rw [hz]; show (0 : Int) + (L.length : Int) < ft.val; omega)]
  show (Run _ b).cb = _
  rw [Run_cb_of_fail _ b (by simp [NewCircuitBreaker]) hb, hz]
  have hval : (I64.ofInt ((0 : Int) + (L.length : Int))).val = (L.length : Int) := by
    rw [I64.ofInt_val _ (by omega) (by omega)]
    omega
  have hsucc : (I64.ofInt ((0 : Int) + (L.length : Int))).succ = ft := by
    apply I64.ext
    rw [I64.succ_val _ (by rw [hval]; omega), hval]
    exact hLlen
  rcases increaseFailureCount_cases
    { NewCircuitBreaker ft tmo st with
      failureCount := I64.ofInt ((0 : Int) + (L.length : Int)) }
    b.failNow with ⟨_, h⟩ | ⟨hlt, _⟩
  · rw [h]
    show ({ NewCircuitBreaker ft tmo st with
        failureCount := (I64.ofInt ((0 : Int) + (L.length : Int))).succ,
        state := State.Open, lastFailure := b.failNow } : CircuitBreaker) = _
    rw [hsucc]
    rfl
  · have hlt2 : (I64.ofInt ((0 : Int) + (L.length : Int))).succ.val < ft.val := hlt
    rw [hsucc] at hlt2
    omega

/-- C6: for a positive `failureThreshold`, a fresh breaker is Open after `failureThreshold`
consecutive failing `Run` calls; if the next call comes after the cooldown (as `Run` tests
it: `time.Since(lastFailure) > stateOpenTimeout`), then after `j` consecutive calls whose
`mainFunc` succeeds (`j ≥ 1`) the breaker is HalfOpen with `successCount = j` as long as
`j < successThreshold`, and Closed with both counters zero when `j = successThreshold`.
(Having `j ≥ 1` calls with `j ≤ successThreshold` makes `successThreshold` positive.) -/
theorem trip_then_recover (ft tmo st : I64) (hft : 0 < ft.val)
    (fails : List RunInput) (hfail : ∀ i ∈ fails, i.mainFails = true)
    (hlen : (fails.length : Int) = ft.val)
    (p : RunInput) (rest : List RunInput) (hok : ∀ i ∈ p :: rest, i.mainFails = false)
    (hcool : (timeSince p.sinceNow (runSeq (NewCircuitBreaker ft tmo st) fails).lastFailure).val
      > tmo.val) :
    (runSeq (NewCircuitBreaker ft tmo st) fails).state = State.Open ∧
    (((p :: rest).length : Int) < st.val →
      (runSeq (runSeq (NewCircuitBreaker ft tmo st) fails) (p :: rest)).state = State.HalfOpen ∧
      (runSeq (runSeq (NewCircuitBreaker ft tmo st) fails) (p :: rest)).successCount.val
        = (p :: rest).length) ∧
    (((p :: rest).length : Int) = st.val →
      (runSeq (runSeq (NewCircuitBreaker ft tmo st) fails) (p :: rest)).state = State.Closed ∧
      (runSeq (runSeq (NewCircuitBreaker ft tmo st) fails) (p :: rest)).failureCount = 0 ∧
      (runSeq (runSeq (NewCircuitBreaker ft tmo st) fails) (p :: rest)).successCount = 0) := by
  obtain ⟨L, b, hL⟩ := exists_eq_append_singleton fails (by
    intro h
    rw [h] at hlen
    simp at hlen
    omega)
  rw [hL] at hfail hlen hcool ⊢
  have hopen := runSeq_fresh_tripped ft tmo st hft L b hfail hlen
  rw [hopen] at hcool ⊢
  have h := runSeq_probes_from_open
    { state := State.Open, failureCount := ft, successCount := 0, failureThreshold := ft,
      successThreshold := st, stateOpenTimeout := tmo, lastFailure := b.failNow }
    p rest rfl hcool hok
  have hnn : (0 : Int) ≤ ((p :: rest).length : Int) := Int.ofNat_nonneg _
  have hhi := st.hi
  refine ⟨rfl, ?_, ?_⟩
  · intro hlt
    rw [h.1 (by show (0 : I64).val + ((p :: rest).length : Int) < st.val
                rw [I64.zero_val]; omega)]
    refine ⟨rfl, ?_⟩
    show (I64.ofInt ((0 : I64).val + ((p :: rest).length : Int))).val = _
    rw [I64.zero_val, I64.ofInt_val _ (by omega) (by omega)]
    omega
  · intro heq
    rw [h.2 (by show (0 : I64).val + ((p :: rest).length : Int) = st.val
                rw [I64.zero_val]; omega)]
    exact ⟨rfl, rfl, rfl⟩

theorem trip_then_recover_witness :
    (runSeq (NewCircuitBreaker 3 5 2)
      [RunInput.failing 10, RunInput.failing 11, RunInput.failing 12]).state = State.Open ∧
    (runSeq (runSeq (NewCircuitBreaker 3 5 2)
        [RunInput.failing 10, RunInput.failing 11, RunInput.failing 12])
      [RunInput.succeeding 18, RunInput.succeeding 19]).state = State.Closed ∧
    (runSeq (runSeq (NewCircuitBreaker 3 5 2)
        [RunInput.failing 10, RunInput.failing 11, RunInput.failing 12])
      [RunInput.succeeding 18]).state = State.HalfOpen :=
  ⟨(trip_then_recover 3 5 2 (by decide)
      [RunInput.failing 10, RunInput.failing 11, RunInput.failing 12] (by decide) (by decide)
      (RunInput.succeeding 18) [RunInput.succeeding 19] (by decide) (by decide)).1,
    ((trip_then_recover 3 5 2 (by decide)
      [RunInput.failing 10, RunInput.failing 11, RunInput.failing 12] (by decide) (by decide)
      (RunInput.succeeding 18) [RunInput.succeeding 19] (by decide) (by decide)).2.2
        (by decide)).1,
    ((trip_then_recover 3 5 2 (by decide)
      [RunInput.failing 10, RunInput.failing 11, RunInput.failing 12] (by decide) (by decide)
      (RunInput.succeeding 18) [] (by decide) (by decide)).2.1 (by decide)).1⟩

/-- C5 (as stated, refuted): with the configuration of `main` (3, 5, 2), the breaker reached by
three failures, one successful probe and one failed probe is Open with `successCount = 1`;
the next call, made after the cooldown with `mainFunc` succeeding, closes it: Closed after one
successful probe, fewer than `successThreshold = 2`. -/
theorem recovery_after_fewer_probes :
    ¬ (∀ (ft tmo st : I64) (hist : List RunInput) (p : RunInput) (rest : List RunInput),
        0 < ft.val → 0 < st.val →
        (runSeq (NewCircuitBreaker ft tmo st) hist).state = State.Open →
        (∀ i ∈ p :: rest, i.mainFails = false) →
        (timeSince p.sinceNow (runSeq (NewCircuitBreaker ft tmo st) hist).lastFailure).val
          > tmo.val →
        ((p :: rest).length : Int) < st.val →
        (runSeq (runSeq (NewCircuitBreaker ft tmo st) hist) (p :: rest)).state
          ≠ State.Closed) := by
  intro h
  exact h 3 5 2
    [RunInput.failing 10, RunInput.failing 11, RunInput.failing 12, RunInput.succeeding 18,
      RunInput.failing 19]
    (RunInput.succeeding 25) [] (by decide) (by decide) (by decide) (by decide) (by decide)
    (by decide) (by decide)

/-- C5 (amended): in every Open state reachable from a fresh breaker with a positive
`successThreshold`, the carried `successCount` satisfies `0 ≤ successCount < successThreshold`;
once the cooldown has elapsed (as `Run` tests it), after `j ≥ 1` consecutive `Run` calls whose
`mainFunc` succeeds the breaker is HalfOpen (not Closed) with `successCount` raised by `j` as
long as `successCount + j < successThreshold`, and it is Closed with both counters zero when
`successCount + j = successThreshold`. -/
theorem recovery_needs_remaining_probes (ft tmo st : I64) (hst : 0 < st.val)
    (hist : List RunInput) (cb : CircuitBreaker)
    (hcb : cb = runSeq (NewCircuitBreaker ft tmo st) hist)
    (hopen : cb.state = State.Open)
    (p : RunInput) (rest : List RunInput) (hok : ∀ i ∈ p :: rest, i.mainFails = false)
    (hcool : (timeSince p.sinceNow cb.lastFailure).val > cb.stateOpenTimeout.val) :
    cb.successThreshold = st ∧ 0 ≤ cb.successCount.val ∧ cb.successCount.val < st.val ∧
    (cb.successCount.val + (p :: rest).length < st.val →
      (runSeq cb (p :: rest)).state = State.HalfOpen ∧
      (runSeq cb (p :: rest)).state ≠ State.Closed ∧
      (runSeq cb (p :: rest)).successCount.val = cb.successCount.val + (p :: rest).length) ∧
    (cb.successCount.val + (p :: rest).length = st.val →
      (runSeq cb (p :: rest)).state = State.Closed ∧
      (runSeq cb (p :: rest)).failureCount = 0 ∧
      (runSeq cb (p :: rest)).successCount = 0) := by
  have hb := runSeq_successCount_bound hist (NewCircuitBreaker ft tmo st)
    (by show 0 ≤ (0 : I64).val; rw [I64.zero_val])
    (by show (0 : I64).val < st.val; rw [I64.zero_val]; exact hst)
  rw [← hcb] at hb
  have hthr : cb.successThreshold = st := hb.1
  have hb1 : 0 ≤ cb.successCount.val := hb.2.1
  have hb2 : cb.successCount.val < st.val := hb.2.2
  have h := runSeq_probes_from_open cb p rest hopen hcool hok
  rw [hthr] at h
  have hnn : (0 : Int) ≤ ((p :: rest).length : Int) := Int.ofNat_nonneg _
  have hhi := st.hi
  refine ⟨hthr, hb1, hb2, ?_, ?_⟩
  · intro hlt
    rw [h.1 hlt]
    refine ⟨rfl, by simp, ?_⟩
    show (I64.ofInt (cb.successCount.val + ((p :: rest).length : Int))).val = _
    exact I64.ofInt_val _ (by omega) (by omega)
  · intro heq
    rw [h.2 heq]
    exact ⟨rfl, rfl, rfl⟩

theorem recovery_needs_remaining_probes_witness :
    (runSeq (NewCircuitBreaker 3 5 2)
      [RunInput.failing 10, RunInput.failing 11, RunInput.failing 12, RunInput.succeeding 18,
        RunInput.failing 19]).successCount.val = 1 ∧
    (runSeq (runSeq (NewCircuitBreaker 3 5 2)
      [RunInput.failing 10, RunInput.failing 11, RunInput.failing 12, RunInput.succeeding 18,
        RunInput.failing 19]) [RunInput.succeeding 25]).state = State.Closed :=
  ⟨by decide,
    ((recovery_needs_remaining_probes 3 5 2 (by decide)
      [RunInput.failing 10, RunInput.failing 11, RunInput.failing 12, RunInput.succeeding 18,
        RunInput.failing 19] _ rfl (by decide) (RunInput.succeeding 25) [] (by decide)
      (by decide)).2.2.2.2 (by decide)).1⟩

/-! ## Runs of failures on a fresh breaker -/

theorem trailingFailures_concat_fail (l : List RunInput) (x : RunInput)
    (hx : x.mainFails = true) : trailingFailures (l ++ [x]) = trailingFailures l + 1 := by
  simp [trailingFailures, hx, List.takeWhile_cons]

theorem trailingFailures_concat_ok (l : List RunInput) (x : RunInput)
    (hx : x.mainFails = false) : trailingFailures (l ++ [x]) = 0 := by
  simp [trailingFailures, hx, List.takeWhile_cons]

theorem replicate_suffix_trailing (l : List RunInput) :
    List.replicate (trailingFailures l) true <:+ l.map RunInput.mainFails := by
  have hsplit := List.takeWhile_append_dropWhile id (l.map RunInput.mainFails).reverse
  have hrep : (l.map RunInput.mainFails).reverse.takeWhile id
      = List.replicate (trailingFailures l) true := by
    rw [List.eq_replicate_iff]
    refine ⟨rfl, fun b hb => ?_⟩
    simpa using List.mem_takeWhile_imp hb
  refine ⟨((l.map RunInput.mainFails).reverse.dropWhile id).reverse, ?_⟩
  have h2 := congrArg List.reverse hsplit
  rw [List.reverse_append, List.reverse_reverse, hrep, List.reverse_replicate] at h2
  exact h2

theorem le_trailing_of_suffix (l : List RunInput) (m : Nat)
    (h : List.replicate m true <:+ l.map RunInput.mainFails) : m ≤ trailingFailures l := by
  obtain ⟨s, hs⟩ := h
  unfold trailingFailures
  rw [← hs, List.reverse_append, List.reverse_replicate,
    List.takeWhile_append_of_pos (by intro a ha; simp [(List.mem_replicate.mp ha).2])]
  simp

theorem trailing_lt_of_no_run (n : Nat) (l : List RunInput) (h : ¬ HasFailureRun n l) :
    trailingFailures l < n := by
  by_contra hge
  have hge : n ≤ trailingFailures l := not_lt.mp hge
  apply h
  have h1 : List.replicate n true <:+ List.replicate (trailingFailures l) true := by
    refine ⟨List.replicate (trailingFailures l - n) true, ?_⟩
    rw [List.append_replicate_replicate]
    congr 1
    omega
  exact (h1.trans (replicate_suffix_trailing l)).isInfix

theorem no_run_of_no_run_concat (n : Nat) (l : List RunInput) (x : RunInput)
    (h : ¬ HasFailureRun n (l ++ [x])) : ¬ HasFailureRun n l := by
  intro hl
  apply h
  unfold HasFailureRun at hl ⊢
  rw [List.map_append]
  exact hl.trans (List.prefix_append _ _).isInfix

/-- On a fresh breaker, as long as no `n` consecutive failures have occurred the breaker is
the fresh one with `failureCount` the number of trailing failures. -/
theorem runSeq_fresh_no_run (n : Nat) (ft : I64) (hft : ft.val = n) (tmo st : I64)
    (l : List RunInput) (h : ¬ HasFailureRun n l) :
    runSeq (NewCircuitBreaker ft tmo st) l =
      { NewCircuitBreaker ft tmo st with failureCount := I64.ofInt (trailingFailures l) } := by
  have hhi := ft.hi
  induction l using List.reverseRecOn with
  | nil => rfl
  | append_singleton l x ih =>
    have hl := no_run_of_no_run_concat n l x h
    have hlt0 := trailing_lt_of_no_run n l hl
    have hval : (I64.ofInt (trailingFailures l : Int)).val = (trailingFailures l : Int) :=
      I64.ofInt_val _ (by omega) (by omega)
    rw [runSeq_append, ih hl]
    show (Run _ x).cb = _
    cases hx : x.mainFails with
    | true =>
      have hlt := trailing_lt_of_no_run n (l ++ [x]) h
      rw [trailingFailures_concat_fail l x hx] at hlt ⊢
      rw [Run_cb_of_fail _ x (by simp [NewCircuitBreaker]) hx]
      have hsucc : (I64.ofInt (trailingFailures l : Int)).succ
          = I64.ofInt ((trailingFailures l + 1 : Nat) : Int) := by
        rw [I64.succ_ofInt _ (by omega) (by omega)]
        simp
      rcases increaseFailureCount_cases
        { NewCircuitBreaker ft tmo st with
          failureCount := I64.ofInt (trailingFailures l : Int) } x.failNow
        with ⟨hge, _⟩ | ⟨_, h2⟩
      · have hge2 : (I64.ofInt (trailingFailures l : Int)).succ.val ≥ ft.val := hge
        rw [I64.succ_val _ (by rw [hval]; omega), hval] at hge2
        omega
      · rw [h2]
        show ({ NewCircuitBreaker ft tmo st with
          failureCount := (I64.ofInt (trailingFailures l : Int)).succ } : CircuitBreaker) = _
        rw [hsucc]
    | false =>
      rw [trailingFailures_concat_ok l x hx]
      rw [Run_cb_of_ok _ x (by simp [NewCircuitBreaker]) hx]
      rcases success_cases
        { NewCircuitBreaker ft tmo st with
          failureCount := I64.ofInt (trailingFailures l : Int) }
        with ⟨hho, _, _⟩ | ⟨_, h2⟩
      · exact absurd hho (by simp [NewCircuitBreaker])
      · rw [h2]
        rfl

/-- C8: on a fresh breaker with `failureThreshold = n > 0`, for a sequence of calls that
contains no `n` consecutive failures the breaker is Closed after every call (with
`failureCount` the number of failures since the last success) and `mainFunc` is invoked on
every call; and if one more call completes a run of `n` consecutive failures, that call
fails and leaves the breaker Open, with `lastFailure` its clock reading. -/
theorem only_consecutive_failures_trip (n : Nat) (hn : 0 < n) (ft : I64) (hft : ft.val = n)
    (tmo st : I64) (is : List RunInput) (hno : ¬ HasFailureRun n is) :
    (∀ q, q <+: is →
      (runSeq (NewCircuitBreaker ft tmo st) q).state = State.Closed ∧
      (runSeq (NewCircuitBreaker ft tmo st) q).failureCount.val = trailingFailures q) ∧
    (∀ q x, q ++ [x] <+: is →
      Call.mainFunc ∈ (Run (runSeq (NewCircuitBreaker ft tmo st) q) x).calls) ∧
    (∀ x, HasFailureRun n (is ++ [x]) →
      x.mainFails = true ∧
      (runSeq (NewCircuitBreaker ft tmo st) (is ++ [x])).state = State.Open ∧
      (runSeq (NewCircuitBreaker ft tmo st) (is ++ [x])).lastFailure = x.failNow) := by
  have hhi := ft.hi
  have hpre : ∀ q, q <+: is → ¬ HasFailureRun n q := by
    intro q hq hr
    exact hno (hr.trans (List.IsPrefix.map RunInput.mainFails hq).isInfix)
  refine ⟨?_, ?_, ?_⟩
  · intro q hq
    have hq0 := trailing_lt_of_no_run n q (hpre q hq)
    rw [runSeq_fresh_no_run n ft hft tmo st q (hpre q hq)]
    exact ⟨rfl, I64.ofInt_val _ (by omega) (by omega)⟩
  · intro q x hq
    have hq2 : q <+: is := (List.prefix_append q [x]).trans hq
    rw [runSeq_fresh_no_run n ft hft tmo st q (hpre q hq2),
      Run_of_not_open _ x (by simp [NewCircuitBreaker])]
    unfold Run.attempt
    cases x.mainErr <;> simp
  · intro x hrun
    have hsuf : List.replicate n true <:+ (is ++ [x]).map RunInput.mainFails := by
      have h2 := hrun
      unfold HasFailureRun at h2
      rw [List.map_append, List.map_singleton, List.infix_concat_iff] at h2
      rcases h2 with h2 | h2
      · rw [List.map_append, List.map_singleton]
        exact h2
      · exact absurd h2 hno
    have hle := le_trailing_of_suffix (is ++ [x]) n hsuf
    have hlt := trailing_lt_of_no_run n is hno
    have hval : (I64.ofInt (trailingFailures is : Int)).val = (trailingFailures is : Int) :=
      I64.ofInt_val _ (by omega) (by omega)
    cases hx : x.mainFails with
    | false =>
      rw [trailingFailures_concat_ok is x hx] at hle
      omega
    | true =>
      rw [trailingFailures_concat_fail is x hx] at hle
      rw [runSeq_append, runSeq_fresh_no_run n ft hft tmo st is hno]
      show true = true ∧ (Run _ x).cb.state = State.Open ∧ (Run _ x).cb.lastFailure = x.failNow
      rw [Run_cb_of_fail _ x (by simp [NewCircuitBreaker]) hx]
      rcases increaseFailureCount_cases
        { NewCircuitBreaker ft tmo st with
          failureCount := I64.ofInt (trailingFailures is : Int) } x.failNow
        with ⟨_, h2⟩ | ⟨hlt2, _⟩
      · rw [h2]
        exact ⟨rfl, rfl, rfl⟩
      · have hlt3 : (I64.ofInt (trailingFailures is : Int)).succ.val < ft.val := hlt2
        rw [I64.succ_val _ (by rw [hval]; omega), hval] at hlt3
        omega

theorem only_consecutive_failures_trip_witness :
    (0 < 3) ∧ (3 : I64).val = (3 : Nat) ∧
    ¬ HasFailureRun 3
      [RunInput.failing 1, RunInput.failing 2, RunInput.succeeding 3, RunInput.failing 4,
        RunInput.failing 5] ∧
    (runSeq (NewCircuitBreaker 3 5 2)
      [RunInput.failing 1, RunInput.failing 2, RunInput.succeeding 3, RunInput.failing 4,
        RunInput.failing 5]).state = State.Closed ∧
    (runSeq (NewCircuitBreaker 3 5 2)
      [RunInput.failing 1, RunInput.failing 2, RunInput.succeeding 3, RunInput.failing 4,
        RunInput.failing 5]).failureCount.val = 2 ∧
    (runSeq (NewCircuitBreaker 3 5 2)
      [RunInput.failing 1, RunInput.failing 2, RunInput.succeeding 3, RunInput.failing 4,
        RunInput.failing 5, RunInput.failing 6]).state = State.Open :=
  ⟨by decide, by decide, by decide,
    ((only_consecutive_failures_trip 3 (by decide) 3 (by decide) 5 2
      [RunInput.failing 1, RunInput.failing 2, RunInput.succeeding 3, RunInput.failing 4,
        RunInput.failing 5] (by decide)).1 _ (List.prefix_refl _)).1,
    by decide,
    ((only_consecutive_failures_trip 3 (by decide) 3 (by decide) 5 2
      [RunInput.failing 1, RunInput.failing 2, RunInput.succeeding 3, RunInput.failing 4,
        RunInput.failing 5] (by decide)).2.2 (RunInput.failing 6) (by decide)).2.1⟩

/-! ## Invariants of the reachable states -/

theorem Run_closed_inv (cb : CircuitBreaker) (i : RunInput)
    (hft : 0 < cb.failureThreshold.val)
    (hinv : cb.state = State.Closed →
      cb.successCount = 0 ∧ 0 ≤ cb.failureCount.val ∧
      cb.failureCount.val < cb.failureThreshold.val)
    (hcl : (Run cb i).cb.state = State.Closed) :
    (Run cb i).cb.successCount = 0 ∧ 0 ≤ (Run cb i).cb.failureCount.val ∧
    (Run cb i).cb.failureCount.val < cb.failureThreshold.val := by
  have hhi := cb.failureThreshold.hi
  by_cases hcool : cb.state = State.Open ∧
      (timeSince i.sinceNow cb.lastFailure).val ≤ cb.stateOpenTimeout.val
  · rw [Run_of_open_cooling cb i hcool.1 hcool.2] at hcl
    have h2 : cb.state = State.Closed := hcl
    rw [hcool.1] at h2
    exact absurd h2 (by simp)
  · obtain ⟨c, _, _, hcs, _, hfc, hsc, hfth, _, _, hrun⟩ := Run_attempt_on cb i hcool
    rw [hrun] at hcl ⊢
    cases hm : i.mainFails with
    | false =>
      rw [attempt_of_ok c i hm] at hcl ⊢
      rcases success_cases c with ⟨hs, _, h⟩ | ⟨_, h⟩
      · rw [h] at hcl
        have h2 : c.state = State.Closed := hcl
        rw [hs] at h2
        exact absurd h2 (by simp)
      · rw [h]
        show (0 : I64) = 0 ∧ 0 ≤ (0 : I64).val ∧ (0 : I64).val < cb.failureThreshold.val
        rw [I64.zero_val]
        exact ⟨rfl, le_refl _, hft⟩
    | true =>
      rw [attempt_of_fail c i hm] at hcl ⊢
      rcases increaseFailureCount_cases c i.failNow with ⟨_, h⟩ | ⟨hlt, h⟩
      · rw [h] at hcl
        exact absurd hcl (by simp)
      · rw [h] at hcl ⊢
        have h2 : c.state = State.Closed := hcl
        obtain ⟨i1, i2, i3⟩ := hinv (hcs.mp h2)
        rw [hfc, hfth] at hlt
        have hsv : cb.failureCount.succ.val = cb.failureCount.val + 1 :=
          I64.succ_val _ (by omega)
        refine ⟨by show c.successCount = 0; rw [hsc]; exact i1, ?_, ?_⟩
        · show 0 ≤ c.failureCount.succ.val
          rw [hfc]; omega
        · show c.failureCount.succ.val < cb.failureThreshold.val
          rw [hfc]; exact hlt

theorem runSeq_closed_inv (is : List RunInput) (cb : CircuitBreaker)
    (hft : 0 < cb.failureThreshold.val)
    (hinv : cb.state = State.Closed →
      cb.successCount = 0 ∧ 0 ≤ cb.failureCount.val ∧
      cb.failureCount.val < cb.failureThreshold.val)
    (hcl : (runSeq cb is).state = State.Closed) :
    (runSeq cb is).successCount = 0 ∧ 0 ≤ (runSeq cb is).failureCount.val ∧
    (runSeq cb is).failureCount.val < cb.failureThreshold.val := by
  induction is generalizing cb with
  | nil => exact hinv hcl
  | cons x xs ih =>
    have hcfg := (Run_config cb x).1
    have h := ih (Run cb x).cb (by rw [hcfg]; exact hft)
      (fun hc => by rw [hcfg]; exact Run_closed_inv cb x hft hinv hc) hcl
    rw [hcfg] at h
    exact h

/-- C16: in every state reached by any sequence of `Run` calls (any outcomes, any clock
readings) from a breaker constructed with a positive `failureThreshold`, if the state is
Closed then `successCount = 0` and `0 ≤ failureCount < failureThreshold`. -/
theorem closed_state_invariant (ft tmo st : I64) (hft : 0 < ft.val) (hist : List RunInput)
    (hcl : (runSeq (NewCircuitBreaker ft tmo st) hist).state = State.Closed) :
    (runSeq (NewCircuitBreaker ft tmo st) hist).successCount = 0 ∧
    0 ≤ (runSeq (NewCircuitBreaker ft tmo st) hist).failureCount.val ∧
    (runSeq (NewCircuitBreaker ft tmo st) hist).failureCount.val < ft.val ∧
    (runSeq (NewCircuitBreaker ft tmo st) hist).failureThreshold = ft := by
  have h := runSeq_closed_inv hist (NewCircuitBreaker ft tmo st) hft
    (fun _ => ⟨rfl, by show 0 ≤ (0 : I64).val; rw [I64.zero_val],
      by show (0 : I64).val < ft.val; rw [I64.zero_val]; exact hft⟩) hcl
  exact ⟨h.1, h.2.1, h.2.2, (runSeq_config hist (NewCircuitBreaker ft tmo st)).1⟩

theorem closed_state_invariant_witness :
    (0 : Int) < (3 : I64).val ∧
    (runSeq (NewCircuitBreaker 3 5 2)
      [RunInput.failing 1, RunInput.failing 2, RunInput.succeeding 3, RunInput.failing 4]).state
      = State.Closed ∧
    (runSeq (NewCircuitBreaker 3 5 2)
      [RunInput.failing 1, RunInput.failing 2, RunInput.succeeding 3,
        RunInput.failing 4]).failureCount.val < (3 : I64).val :=
  ⟨by decide, by decide,
    (closed_state_invariant 3 5 2 (by decide)
      [RunInput.failing 1, RunInput.failing 2, RunInput.succeeding 3, RunInput.failing 4]
      (by decide)).2.2.1⟩

/-- C20: in every state reached by any sequence of `Run` calls from a breaker constructed with
`successThreshold > 0`, `0 ≤ successCount < successThreshold`; a successful probe that would
bring `successCount` to `successThreshold` closes the breaker and zeroes both counters in the
same call, so `successCount = successThreshold` is never the result of a call. -/
theorem successCount_below_threshold (ft tmo st : I64) (hst : 0 < st.val)
    (hist : List RunInput)
    (cb : CircuitBreaker) (hcb : cb = runSeq (NewCircuitBreaker ft tmo st) hist) :
    cb.successThreshold = st ∧ 0 ≤ cb.successCount.val ∧ cb.successCount.val < st.val ∧
    (∀ i : RunInput, i.mainFails = false →
      (cb.state = State.HalfOpen ∨
        (cb.state = State.Open ∧
          (timeSince i.sinceNow cb.lastFailure).val > cb.stateOpenTimeout.val)) →
      cb.successCount.val + 1 ≥ st.val →
      (Run cb i).cb.state = State.Closed ∧ (Run cb i).cb.successCount = 0 ∧
      (Run cb i).cb.failureCount = 0) ∧
    (∀ i : RunInput,
      0 ≤ (Run cb i).cb.successCount.val ∧ (Run cb i).cb.successCount.val < st.val) := by
  have hb := runSeq_successCount_bound hist (NewCircuitBreaker ft tmo st)
    (by show 0 ≤ (0 : I64).val; rw [I64.zero_val])
    (by show (0 : I64).val < st.val; rw [I64.zero_val]; exact hst)
  rw [← hcb] at hb
  have hb1 : 0 ≤ cb.successCount.val := hb.2.1
  have hb2 : cb.successCount.val < st.val := hb.2.2
  have hhi := st.hi
  refine ⟨hb.1, hb1, hb2, ?_, ?_⟩
  · intro i hm hs hge
    have hcool : ¬ (cb.state = State.Open ∧
        (timeSince i.sinceNow cb.lastFailure).val ≤ cb.stateOpenTimeout.val) := by
      rintro ⟨h1, h2⟩
      rcases hs with hs | ⟨_, hs⟩
      · rw [h1] at hs; exact absurd hs (by simp)
      · exact absurd hs (not_lt.mpr h2)
    obtain ⟨c, _, _, _, _, _, hsc, _, hsth, _, hrun⟩ := Run_attempt_on cb i hcool
    rw [hrun, attempt_of_ok c i hm]
    rcases success_cases c with ⟨_, hlt, _⟩ | ⟨_, h⟩
    · rw [hsc, hsth, hb.1, I64.succ_val _ (by omega)] at hlt
      exact absurd hge (not_le.mpr hlt)
    · rw [h]
      exact ⟨rfl, rfl, rfl⟩
  · intro i
    have h := Run_successCount_bound cb i hb1 (by rw [hb.1]; exact hb2)
    rw [hb.1] at h
    exact h

theorem successCount_below_threshold_witness :
    (0 : Int) < (2 : I64).val ∧
    (runSeq (NewCircuitBreaker 3 5 2)
      [RunInput.failing 10, RunInput.failing 11, RunInput.failing 12, RunInput.succeeding 18,
        RunInput.succeeding 19]).successCount.val < (2 : I64).val :=
  ⟨by decide,
    (successCount_below_threshold 3 5 2 (by decide)
      [RunInput.failing 10, RunInput.failing 11, RunInput.failing 12, RunInput.succeeding 18,
        RunInput.succeeding 19] _ rfl).2.2.1⟩

/-! ## Failed probes and the wrap of `failureCount` -/

theorem Run_tripped_inv (cb : CircuitBreaker) (i : RunInput) (n : Int)
    (hn : n < 9223372036854775807)
    (h0 : 0 ≤ cb.failureCount.val) (hle : cb.failureCount.val ≤ n)
    (hinv : cb.state ≠ State.Closed → cb.failureCount.val ≥ cb.failureThreshold.val) :
    0 ≤ (Run cb i).cb.failureCount.val ∧ (Run cb i).cb.failureCount.val ≤ n + 1 ∧
    ((Run cb i).cb.state ≠ State.Closed →
      (Run cb i).cb.failureCount.val ≥ cb.failureThreshold.val) := by
  by_cases hcool : cb.state = State.Open ∧
      (timeSince i.sinceNow cb.lastFailure).val ≤ cb.stateOpenTimeout.val
  · rw [Run_of_open_cooling cb i hcool.1 hcool.2]
    exact ⟨h0, by show cb.failureCount.val ≤ n + 1; omega, hinv⟩
  · obtain ⟨c, _, _, hcs, _, hfc, _, hfth, _, _, hrun⟩ := Run_attempt_on cb i hcool
    rw [hrun]
    cases hm : i.mainFails with
    | false =>
      rw [attempt_of_ok c i hm]
      rcases success_cases c with ⟨hs, _, h⟩ | ⟨_, h⟩
      · rw [h]
        refine ⟨by show 0 ≤ c.failureCount.val; rw [hfc]; exact h0,
          by show c.failureCount.val ≤ n + 1; rw [hfc]; omega, fun _ => ?_⟩
        show c.failureCount.val ≥ cb.failureThreshold.val
        rw [hfc]
        exact hinv (fun hc => by rw [hcs.mpr hc] at hs; exact absurd hs (by simp))
      · rw [h]
        refine ⟨by show 0 ≤ (0 : I64).val; rw [I64.zero_val],
          by show (0 : I64).val ≤ n + 1; rw [I64.zero_val]; omega,
          fun hnc => absurd rfl hnc⟩
    | true =>
      rw [attempt_of_fail c i hm]
      have hsv : c.failureCount.succ.val = cb.failureCount.val + 1 := by
        rw [hfc]; exact I64.succ_val _ (by omega)
      rcases increaseFailureCount_cases c i.failNow with ⟨hge, h⟩ | ⟨_, h⟩
      · rw [h]
        refine ⟨by show 0 ≤ c.failureCount.succ.val; omega,
          by show c.failureCount.succ.val ≤ n + 1; omega, fun _ => ?_⟩
        show c.failureCount.succ.val ≥ cb.failureThreshold.val
        rw [← hfth]; exact hge
      · rw [h]
        refine ⟨by show 0 ≤ c.failureCount.succ.val; omega,
          by show c.failureCount.succ.val ≤ n + 1; omega, fun hnc => ?_⟩
        have h2 : c.state ≠ State.Closed := hnc
        have h3 := hinv (fun hc => h2 (hcs.mpr hc))
        show c.failureCount.succ.val ≥ cb.failureThreshold.val
        omega

theorem runSeq_tripped_inv (is : List RunInput) (cb : CircuitBreaker) (n : Int)
    (hn : n + is.length ≤ 9223372036854775807)
    (h0 : 0 ≤ cb.failureCount.val) (hle : cb.failureCount.val ≤ n)
    (hinv : cb.state ≠ State.Closed → cb.failureCount.val ≥ cb.failureThreshold.val) :
    0 ≤ (runSeq cb is).failureCount.val ∧ (runSeq cb is).failureCount.val ≤ n + is.length ∧
    ((runSeq cb is).state ≠ State.Closed →
      (runSeq cb is).failureCount.val ≥ cb.failureThreshold.val) := by
  induction is generalizing cb n with
  | nil => exact ⟨h0, by simpa using hle, hinv⟩
  | cons x xs ih =>
    have hlen : ((x :: xs).length : Int) = (xs.length : Int) + 1 := by simp
    rw [hlen] at hn ⊢
    have hnn : (0 : Int) ≤ (xs.length : Int) := Int.ofNat_nonneg _
    have hcfg := (Run_config cb x).1
    have hstep := Run_tripped_inv cb x n (by omega) h0 hle hinv
    have h := ih (Run cb x).cb (n + 1) (by omega) hstep.1 hstep.2.1
      (by rw [hcfg]; exact hstep.2.2)
    rw [hcfg] at h
    exact ⟨h.1, by have := h.2.1; show (runSeq (Run cb x).cb xs).failureCount.val ≤ _; omega,
      h.2.2⟩

/-- A breaker with threshold 1 and timeout `-1`, called with a failing `mainFunc` at a clock
that stays at 0: every call after the first is admitted as a probe and re-opens the breaker,
and `failureCount` is the number of calls as long as that fits an `int`. -/
theorem runSeq_failing_probes (k : Nat) (hk1 : 1 ≤ k) (hk2 : (k : Int) ≤ 9223372036854775807) :
    runSeq (NewCircuitBreaker 1 (I64.ofInt (-1)) 1) (List.replicate k (RunInput.failing 0)) =
      { state := State.Open, failureCount := I64.ofInt k, successCount := 0,
        failureThreshold := 1, successThreshold := 1, stateOpenTimeout := I64.ofInt (-1),
        lastFailure := 0 } := by
  induction k, hk1 using Nat.le_induction with
  | base => decide
  | succ k hk ih =>
    have hk3 : (k : Int) + 1 ≤ 9223372036854775807 := by exact_mod_cast hk2
    have hk0 : (1 : Int) ≤ (k : Int) := by exact_mod_cast hk
    have hel : (timeSince (0 : Int) (0 : Int)).val > (I64.ofInt (-1)).val := by decide
    have hsucc : (I64.ofInt (k : Int)).succ = I64.ofInt ((k + 1 : Nat) : Int) := by
      rw [I64.succ_ofInt _ (by omega) (by omega)]
      simp
    have hval : (I64.ofInt ((k + 1 : Nat) : Int)).val = (k : Int) + 1 := by
      rw [I64.ofInt_val _ (by push_cast; omega) (by push_cast; omega)]
      simp
    have h1 : (1 : I64).val = 1 := by decide
    have hstep : (Run
        { state := State.Open, failureCount := I64.ofInt (k : Int), successCount := 0,
          failureThreshold := 1, successThreshold := 1, stateOpenTimeout := I64.ofInt (-1),
          lastFailure := 0 } (RunInput.failing 0)).cb =
        { state := State.Open, failureCount := I64.ofInt ((k + 1 : Nat) : Int),
          successCount := 0, failureThreshold := 1, successThreshold := 1,
          stateOpenTimeout := I64.ofInt (-1), lastFailure := 0 } := by
      rw [Run_of_open_elapsed
        { state := State.Open, failureCount := I64.ofInt (k : Int), successCount := 0,
          failureThreshold := 1, successThreshold := 1, stateOpenTimeout := I64.ofInt (-1),
          lastFailure := 0 } (RunInput.failing 0) rfl hel,
        attempt_of_fail
          { state := State.HalfOpen, failureCount := I64.ofInt (k : Int), successCount := 0,
            failureThreshold := 1, successThreshold := 1, stateOpenTimeout := I64.ofInt (-1),
            lastFailure := 0 } (RunInput.failing 0) rfl]
      rcases increaseFailureCount_cases
        { state := State.HalfOpen, failureCount := I64.ofInt (k : Int), successCount := 0,
          failureThreshold := 1, successThreshold := 1, stateOpenTimeout := I64.ofInt (-1),
          lastFailure := 0 }
        (RunInput.failing 0).failNow with ⟨_, h⟩ | ⟨hlt, _⟩
      · simp only [h, hsucc]
        rfl
      · have hlt2 : (I64.ofInt (k : Int)).succ.val < (1 : I64).val := hlt
        rw [hsucc, hval] at hlt2
        omega
    rw [List.replicate_succ', runSeq_append, ih (by omega)]
    exact hstep

/-- C19 (as stated, refuted): the breaker made by `NewCircuitBreaker` with thresholds 1 and
timeout `-1`, after `2^63` failing calls at a clock that stays at 0, is HalfOpen with
`failureCount` wrapped to the smallest `int`, below `failureThreshold = 1`. -/
theorem failed_probe_after_wrap :
    ¬ (∀ (ft tmo st : I64) (hist : List RunInput),
        ((runSeq (NewCircuitBreaker ft tmo st) hist).state = State.Open ∨
          (runSeq (NewCircuitBreaker ft tmo st) hist).state = State.HalfOpen) →
        (runSeq (NewCircuitBreaker ft tmo st) hist).failureCount.val
          ≥ (runSeq (NewCircuitBreaker ft tmo st) hist).failureThreshold.val) := by
  intro h
  have h1 := h 1 (I64.ofInt (-1)) 1
    (List.replicate 9223372036854775807 (RunInput.failing 0) ++ [RunInput.failing 0])
  rw [runSeq_append, runSeq_failing_probes 9223372036854775807 (by decide) (by decide)] at h1
  exact absurd (h1 (Or.inr (by decide))) (by decide)

/-- C19 (amended): in every state reached from a fresh breaker (any thresholds) by fewer than
`2^63 - 1` `Run` calls (so that `failureCount` has not wrapped), Open or HalfOpen implies
`failureCount ≥ failureThreshold`; hence a `Run` call on such a state that invokes `mainFunc`
from HalfOpen, or from Open past the cooldown (as `Run` tests it), and whose `mainFunc` fails
ends Open with `lastFailure` its `time.Now()` reading, and no call on such a state whose
`mainFunc` fails ends HalfOpen. -/
theorem failed_probe_reopens (ft tmo st : I64) (hist : List RunInput)
    (hlen : (hist.length : Int) < 9223372036854775807) (cb : CircuitBreaker)
    (hcb : cb = runSeq (NewCircuitBreaker ft tmo st) hist) :
    cb.failureThreshold = ft ∧
    ((cb.state = State.Open ∨ cb.state = State.HalfOpen) → cb.failureCount.val ≥ ft.val) ∧
    (∀ i : RunInput, i.mainFails = true →
      (cb.state = State.HalfOpen ∨
        (cb.state = State.Open ∧
          (timeSince i.sinceNow cb.lastFailure).val > cb.stateOpenTimeout.val)) →
      Call.mainFunc ∈ (Run cb i).calls ∧
      (Run cb i).cb.state = State.Open ∧ (Run cb i).cb.lastFailure = i.failNow) ∧
    (∀ i : RunInput, i.mainFails = true → (Run cb i).cb.state ≠ State.HalfOpen) := by
  have hthr : cb.failureThreshold = ft := by
    rw [hcb]; exact (runSeq_config hist (NewCircuitBreaker ft tmo st)).1
  have hall := runSeq_tripped_inv hist (NewCircuitBreaker ft tmo st) 0 (by omega)
    (by show 0 ≤ (0 : I64).val; rw [I64.zero_val])
    (by show (0 : I64).val ≤ 0; rw [I64.zero_val])
    (fun hc => absurd rfl hc)
  rw [← hcb] at hall
  obtain ⟨hf0, hfle, hinv0⟩ := hall
  have hinv : cb.state ≠ State.Closed → cb.failureCount.val ≥ ft.val := hinv0
  have hfmax : cb.failureCount.val < 9223372036854775807 := by omega
  refine ⟨hthr, ?_, ?_, ?_⟩
  · intro hs
    exact hinv (by rcases hs with hs | hs <;> rw [hs] <;> simp)
  · intro i hm hs
    have hcool : ¬ (cb.state = State.Open ∧
        (timeSince i.sinceNow cb.lastFailure).val ≤ cb.stateOpenTimeout.val) := by
      rintro ⟨h1, h2⟩
      rcases hs with hs | ⟨_, hs⟩
      · rw [h1] at hs; exact absurd hs (by simp)
      · exact absurd hs (not_lt.mpr h2)
    obtain ⟨c, _, _, _, _, hfc, _, hfth, _, _, hrun⟩ := Run_attempt_on cb i hcool
    have hge := hinv (by rcases hs with hs | ⟨hs, _⟩ <;> rw [hs] <;> simp)
    rw [hrun, attempt_of_fail c i hm]
    rcases increaseFailureCount_cases c i.failNow with ⟨_, h⟩ | ⟨hlt, h⟩
    · rw [h]
      exact ⟨by simp, rfl, rfl⟩
    · rw [hfc, hfth, hthr, I64.succ_val _ hfmax] at hlt
      omega
  · intro i hm
    by_cases hcool : cb.state = State.Open ∧
        (timeSince i.sinceNow cb.lastFailure).val ≤ cb.stateOpenTimeout.val
    · rw [Run_of_open_cooling cb i hcool.1 hcool.2]
      show cb.state ≠ State.HalfOpen
      rw [hcool.1]; simp
    · obtain ⟨c, _, hst, hcs, _, hfc, _, hfth, _, _, hrun⟩ := Run_attempt_on cb i hcool
      rw [hrun, attempt_of_fail c i hm]
      rcases increaseFailureCount_cases c i.failNow with ⟨_, h⟩ | ⟨hlt, h⟩
      · rw [h]; simp
      · rw [h]
        show c.state ≠ State.HalfOpen
        rcases hst with hst | hst
        · rw [hst]; simp
        · have hge := hinv (fun hc => by rw [hcs.mpr hc] at hst; exact absurd hst (by simp))
          rw [hfc, hfth, hthr, I64.succ_val _ hfmax] at hlt
          omega

theorem failed_probe_reopens_witness :
    (([RunInput.failing 10, RunInput.failing 11, RunInput.failing 12,
        RunInput.succeeding 18].length : Nat) : Int) < 9223372036854775807 ∧
    (runSeq (NewCircuitBreaker 3 5 2)
      [RunInput.failing 10, RunInput.failing 11, RunInput.failing 12,
        RunInput.succeeding 18]).state = State.HalfOpen ∧
    (Run (runSeq (NewCircuitBreaker 3 5 2)
      [RunInput.failing 10, RunInput.failing 11, RunInput.failing 12,
        RunInput.succeeding 18]) (RunInput.failing 19)).cb.state = State.Open ∧
    (Run (runSeq (NewCircuitBreaker 3 5 2)
      [RunInput.failing 10, RunInput.failing 11, RunInput.failing 12,
        RunInput.succeeding 18]) (RunInput.failing 19)).cb.lastFailure = 19 :=
  ⟨by decide, by decide,
    ((failed_probe_reopens 3 5 2
      [RunInput.failing 10, RunInput.failing 11, RunInput.failing 12, RunInput.succeeding 18]
      (by decide) _ rfl).2.2.1 (RunInput.failing 19) rfl (Or.inl (by decide))).2⟩

/-! ## Terminal states -/

/-- An Open breaker whose timeout is the largest `Duration` never changes: `time.Since` is
never above the timeout, so every call short-circuits. -/
theorem runSeq_open_capped (is : List RunInput) (cb : CircuitBreaker)
    (hs : cb.state = State.Open) (ht : cb.stateOpenTimeout.val = 9223372036854775807) :
    runSeq cb is = cb := by
  induction is with
  | nil => rfl
  | cons x xs ih =>
    show runSeq (Run cb x).cb xs = cb
    rw [Run_of_open_cooling cb x hs (by rw [ht]; exact (timeSince _ _).hi)]
    exact ih

/-- C18 (as stated, refuted): the breaker made by `NewCircuitBreaker` with thresholds 1 and
the largest `Duration` as timeout is Open after one failing call, and no sequence of `Run`
calls, whatever the outcomes and clock readings, brings it to Closed. -/
theorem open_with_capped_timeout_is_terminal :
    ¬ (∀ (ft tmo st : I64) (hist : List RunInput), 0 < ft.val → 0 < st.val → 0 ≤ tmo.val →
        ∃ is : List RunInput,
          (runSeq (runSeq (NewCircuitBreaker ft tmo st) hist) is).state = State.Closed) := by
  intro h
  obtain ⟨is, his⟩ := h 1 I64.maxValue 1 [RunInput.failing 1] (by decide) (by decide)
    (by decide)
  rw [runSeq_open_capped is _ (by decide) (by decide)] at his
  exact absurd his (by decide)

/-- From a breaker that is not Open, enough failing calls open it. -/
theorem exists_failures_to_open (m : Nat) (t : Int) :
    ∀ cb : CircuitBreaker, cb.state ≠ State.Open →
      cb.failureThreshold.val - cb.failureCount.succ.val ≤ m →
      ∃ k, 1 ≤ k ∧ (runSeq cb (List.replicate k (RunInput.failing t))).state = State.Open := by
  induction m with
  | zero =>
    intro cb hs hm
    refine ⟨1, le_refl 1, ?_⟩
    show (Run cb (RunInput.failing t)).cb.state = State.Open
    rw [Run_cb_of_fail cb (RunInput.failing t) hs rfl]
    rcases increaseFailureCount_cases cb (RunInput.failing t).failNow with ⟨_, h⟩ | ⟨hlt, _⟩
    · rw [h]
    · have hm2 : cb.failureThreshold.val - cb.failureCount.succ.val ≤ 0 := by
        exact_mod_cast hm
      omega
  | succ m ih =>
    intro cb hs hm
    have hstep := Run_cb_of_fail cb (RunInput.failing t) hs rfl
    rcases increaseFailureCount_cases cb (RunInput.failing t).failNow with ⟨_, h⟩ | ⟨hlt, h⟩
    · refine ⟨1, le_refl 1, ?_⟩
      show (Run cb (RunInput.failing t)).cb.state = State.Open
      rw [hstep, h]
    · have hm2 : cb.failureThreshold.val - cb.failureCount.succ.val ≤ (m : Int) + 1 := by
        exact_mod_cast hm
      have hhi := cb.failureThreshold.hi
      have hsv : cb.failureCount.succ.succ.val = cb.failureCount.succ.val + 1 :=
        I64.succ_val _ (by omega)
      obtain ⟨k, hk, hopen⟩ := ih { cb with failureCount := cb.failureCount.succ } hs
        (by show cb.failureThreshold.val - cb.failureCount.succ.succ.val ≤ (m : Int); omega)
      refine ⟨k + 1, by omega, ?_⟩
      show (runSeq (Run cb (RunInput.failing t)).cb
        (List.replicate k (RunInput.failing t))).state = State.Open
      rw [hstep, h]
      exact hopen

/-- From a HalfOpen breaker, enough successful calls close it. -/
theorem exists_successes_to_closed (m : Nat) (t : Int) :
    ∀ cb : CircuitBreaker, cb.state = State.HalfOpen →
      cb.successThreshold.val - cb.successCount.succ.val ≤ m →
      ∃ k, 1 ≤ k ∧
        (runSeq cb (List.replicate k (RunInput.succeeding t))).state = State.Closed := by
  induction m with
  | zero =>
    intro cb hs hm
    refine ⟨1, le_refl 1, ?_⟩
    show (Run cb (RunInput.succeeding t)).cb.state = State.Closed
    rw [Run_cb_of_ok cb (RunInput.succeeding t) (by rw [hs]; simp) rfl]
    rcases success_cases cb with ⟨_, hlt, _⟩ | ⟨_, h⟩
    · have hm2 : cb.successThreshold.val - cb.successCount.succ.val ≤ 0 := by
        exact_mod_cast hm
      omega
    · rw [h]
  | succ m ih =>
    intro cb hs hm
    have hstep := Run_cb_of_ok cb (RunInput.succeeding t) (by rw [hs]; simp) rfl
    rcases success_cases cb with ⟨_, hlt, h⟩ | ⟨_, h⟩
    · have hm2 : cb.successThreshold.val - cb.successCount.succ.val ≤ (m : Int) + 1 := by
        exact_mod_cast hm
      have hhi := cb.successThreshold.hi
      have hsv : cb.successCount.succ.succ.val = cb.successCount.succ.val + 1 :=
        I64.succ_val _ (by omega)
      obtain ⟨k, hk, hclosed⟩ := ih { cb with successCount := cb.successCount.succ } hs
        (by show cb.successThreshold.val - cb.successCount.succ.succ.val ≤ (m : Int); omega)
      refine ⟨k + 1, by omega, ?_⟩
      show (runSeq (Run cb (RunInput.succeeding t)).cb
        (List.replicate k (RunInput.succeeding t))).state = State.Closed
      rw [hstep, h]
      exact hclosed
    · refine ⟨1, le_refl 1, ?_⟩
      show (Run cb (RunInput.succeeding t)).cb.state = State.Closed
      rw [hstep, h]

theorem runSeq_replicate_of_open_elapsed (cb : CircuitBreaker) (x : RunInput) (k : Nat)
    (hk : 1 ≤ k) (hs : cb.state = State.Open)
    (ht : (timeSince x.sinceNow cb.lastFailure).val > cb.stateOpenTimeout.val) :
    runSeq cb (List.replicate k x)
      = runSeq { cb with state := State.HalfOpen } (List.replicate k x) := by
  obtain ⟨j, rfl⟩ : ∃ j, k = j + 1 := ⟨k - 1, by omega⟩
  rw [List.replicate_succ]
  exact runSeq_of_open_elapsed cb x (List.replicate j x) hs ht

/-- C18 (amended): from every breaker state whose `stateOpenTimeout` is below the largest
`Duration` (reachable or not, any thresholds) and for every time `t0`, some non-empty
sequence of `Run` calls with clock readings not before `t0` and `mainFunc` succeeding ends
Closed, and some such sequence with `mainFunc` failing ends Open; so from every such state
some sequence of calls leads to a different state: no such state is absorbing. -/
theorem no_terminal_state (cb : CircuitBreaker)
    (hmax : cb.stateOpenTimeout.val < 9223372036854775807) (t0 : Int) :
    (∃ (t : Int) (k : Nat), t0 ≤ t ∧ 1 ≤ k ∧
      (runSeq cb (List.replicate k (RunInput.succeeding t))).state = State.Closed) ∧
    (∃ (t : Int) (k : Nat), t0 ≤ t ∧ 1 ≤ k ∧
      (runSeq cb (List.replicate k (RunInput.failing t))).state = State.Open) ∧
    (∃ is : List RunInput, is ≠ [] ∧ (runSeq cb is).state ≠ cb.state) := by
  obtain ⟨T, ht0, hel⟩ : ∃ T : Int, t0 ≤ T ∧
      (timeSince T cb.lastFailure).val > cb.stateOpenTimeout.val := by
    refine ⟨max t0 (cb.lastFailure + cb.stateOpenTimeout.val + 1), le_max_left _ _, ?_⟩
    rw [timeSince_gt_iff]
    have := le_max_right t0 (cb.lastFailure + cb.stateOpenTimeout.val + 1)
    exact ⟨by omega, hmax⟩
  have hclosed : ∃ (t : Int) (k : Nat), t0 ≤ t ∧ 1 ≤ k ∧
      (runSeq cb (List.replicate k (RunInput.succeeding t))).state = State.Closed := by
    refine ⟨T, ?_⟩
    cases hs : cb.state with
    | Closed =>
      refine ⟨1, ht0, le_refl 1, ?_⟩
      show (Run cb (RunInput.succeeding T)).cb.state = State.Closed
      rw [Run_cb_of_ok cb (RunInput.succeeding T) (by rw [hs]; simp) rfl]
      rcases success_cases cb with ⟨h1, _, _⟩ | ⟨_, h⟩
      · rw [hs] at h1; exact absurd h1 (by simp)
      · rw [h]
    | HalfOpen =>
      obtain ⟨k, hk, h⟩ := exists_successes_to_closed
        (cb.successThreshold.val - cb.successCount.succ.val).toNat T cb hs
        (Int.self_le_toNat _)
      exact ⟨k, ht0, hk, h⟩
    | Open =>
      obtain ⟨k, hk, h⟩ := exists_successes_to_closed
        (cb.successThreshold.val - cb.successCount.succ.val).toNat T
        { cb with state := State.HalfOpen } rfl (Int.self_le_toNat _)
      refine ⟨k, ht0, hk, ?_⟩
      rw [runSeq_replicate_of_open_elapsed cb (RunInput.succeeding T) k hk hs hel]
      exact h
  have hopen : ∃ (t : Int) (k : Nat), t0 ≤ t ∧ 1 ≤ k ∧
      (runSeq cb (List.replicate k (RunInput.failing t))).state = State.Open := by
    refine ⟨T, ?_⟩
    by_cases hs : cb.state = State.Open
    · obtain ⟨k, hk, h⟩ := exists_failures_to_open
        (cb.failureThreshold.val - cb.failureCount.succ.val).toNat T
        { cb with state := State.HalfOpen } (by simp) (Int.self_le_toNat _)
      refine ⟨k, ht0, hk, ?_⟩
      rw [runSeq_replicate_of_open_elapsed cb (RunInput.failing T) k hk hs hel]
      exact h
    · obtain ⟨k, hk, h⟩ := exists_failures_to_open
        (cb.failureThreshold.val - cb.failureCount.succ.val).toNat T cb hs
        (Int.self_le_toNat _)
      exact ⟨k, ht0, hk, h⟩
  refine ⟨hclosed, hopen, ?_⟩
  have hne : ∀ (k : Nat) (x : RunInput), 1 ≤ k → List.replicate k x ≠ [] := by
    intro k x hk h
    have := congrArg List.length h
    simp at this
    omega
  by_cases hs : cb.state = State.Closed
  · obtain ⟨t, k, _, hk, h⟩ := hopen
    exact ⟨_, hne k _ hk, by rw [h, hs]; simp⟩
  · obtain ⟨t, k, _, hk, h⟩ := hclosed
    exact ⟨_, hne k _ hk, by rw [h]; exact fun hc => hs hc.symm⟩

theorem no_terminal_state_witness :
    trippedAt100.stateOpenTimeout.val < 9223372036854775807 ∧
    (∃ is : List RunInput, is ≠ [] ∧ (runSeq trippedAt100 is).state ≠ trippedAt100.state) :=
  ⟨by decide, (no_terminal_state trippedAt100 (by decide) 0).2.2⟩

end CircuitBreakerPattern
